import Mathlib

/-!
Verification of the Git URL normalization and command-execution layer of
`git_operations.py` (class `GitOperations`).

Python strings are modelled as `List Char` (`PyStr`).  The Python standard
library functions the source calls (`str.strip`, `str.split`, `str.replace`,
`urllib.parse.urlparse` / `urlunparse`, CPython 3.11, and the one regular
expression `git@([^:]+):([^/]+)/(.+)\.git` used with `re.match`) are embedded
as executable Lean functions below, each with a comment pointing at the
Python behaviour it reproduces.  Subprocess execution and the filesystem are
modelled by explicit function parameters (`runner`, `pathExists`); the
commands a call spawns are returned as an explicit trace.
-/

/-- A Python `str`, modelled as its list of characters. -/
abbrev PyStr := List Char

/-- Characters of a Lean string literal, used to write `PyStr` constants. -/
def pystr (s : String) : PyStr := s.data

/-- Split at the first occurrence of character `c`: returns the part before
and the part after (separator removed), or `none` when `c` does not occur.
This is Python `s.split(c, 1)` restricted to the case where `c` occurs,
and also Python `s.find(c)` information. -/
def splitOnce (c : Char) : PyStr → Option (PyStr × PyStr)
  | [] => none
  | x :: xs =>
    if x = c then some ([], xs)
    else (splitOnce c xs).map (fun p => (x :: p.1, p.2))

/-- Python `s.split(c)` for a one-character separator: splits on every
occurrence and keeps empty parts; `"".split(c)` is `[""]`. -/
def pySplit (c : Char) : PyStr → List PyStr
  | [] => [[]]
  | x :: xs =>
    let r := pySplit c xs
    if x = c then [] :: r
    else
      match r with
      | h :: t => (x :: h) :: t
      | [] => [[x]]

/-- The prefix of `l` up to (excluding) the first character that occurs in
`stop`, together with the rest starting at that character.  This is CPython
`urllib.parse._splitnetloc`: the least of the positions of the characters of
`stop`. -/
def takeUntilAny (stop : PyStr) : PyStr → PyStr × PyStr
  | [] => ([], [])
  | x :: xs =>
    if stop.contains x then ([], x :: xs)
    else
      let p := takeUntilAny stop xs
      (x :: p.1, p.2)

/-- Python `s.strip(chars)`: removes from both ends every character that is a
member of the character set `chars`. -/
def pyStripSet (chars s : PyStr) : PyStr :=
  ((s.dropWhile (fun c => chars.contains c)).reverse.dropWhile
    (fun c => chars.contains c)).reverse

/-- Fuel-driven core of Python `s.replace(old, new)` (all non-overlapping
occurrences, scanned left to right).  The fuel is always called with
`l.length + 1`, which suffices because the source only calls `replace` with
the non-empty pattern `".git"`, so every step consumes at least one input
character. -/
def pyReplaceGo (old new : PyStr) : Nat → PyStr → PyStr
  | 0, l => l
  | _ + 1, [] => []
  | fuel + 1, x :: xs =>
    if old.isPrefixOf (x :: xs) then new ++ pyReplaceGo old new fuel ((x :: xs).drop old.length)
    else x :: pyReplaceGo old new fuel xs

/-- Python `s.replace(old, new)` for a non-empty `old`. -/
def pyReplace (old new l : PyStr) : PyStr := pyReplaceGo old new (l.length + 1) l

/-- Python `sep.join(parts)` for a one-character separator. -/
def joinWith (c : Char) : List PyStr → PyStr
  | [] => []
  | [x] => x
  | x :: y :: t => x ++ c :: joinWith c (y :: t)

/-- ASCII lowercasing, Python `s.lower()` restricted to ASCII (URL schemes
are ASCII; CPython lowercases the scheme with `str.lower`). -/
def lowerAscii (s : PyStr) : PyStr := s.map Char.toLower

/-- Split `l` as `a ++ sep :: b` at the LAST occurrence of `sep` (so `sep`
does not occur in `b`), via the first occurrence in the reversal.  This is
Python `s.rfind(sep)` information. -/
def splitAtLast (c : Char) (l : PyStr) : Option (PyStr × PyStr) :=
  match splitOnce c l.reverse with
  | some (rb, ra) => some (ra.reverse, rb.reverse)
  | none => none

/-- CPython `_WHATWG_C0_CONTROL_OR_SPACE` membership: code points up to 0x20.
`urlsplit` strips these from the left of its input. -/
def isC0OrSpace (c : Char) : Bool := decide (c.val ≤ 0x20)

/-- CPython `_UNSAFE_URL_BYTES_TO_REMOVE` membership: tab, CR and LF, which
`urlsplit` removes everywhere in its input. -/
def isUnsafeByte (c : Char) : Bool := c == '\t' || c == '\r' || c == '\n'

/-- The input normalization CPython 3.11 `urlsplit` performs before parsing:
left-strip C0 controls and space, then delete every tab, CR and LF. -/
def wsClean (l : PyStr) : PyStr :=
  (l.dropWhile isC0OrSpace).filter (fun c => !isUnsafeByte c)

/-- CPython `scheme_chars`: ASCII letters, digits, `+`, `-`, `.`. -/
def isSchemeChar (c : Char) : Bool :=
  c.isAlpha || c.isDigit || c == '+' || c == '-' || c == '.'

/-- Scheme detection of CPython 3.11 `urlsplit`: if there is a colon at a
positive position, the first character is an ASCII letter and everything
before the colon is a scheme character, the lowercased prefix is the scheme;
otherwise the scheme is empty and the input is left whole. -/
def splitScheme (url : PyStr) : PyStr × PyStr :=
  match splitOnce ':' url with
  | none => ([], url)
  | some (pre, post) =>
    if pre ≠ [] ∧ (pre.head?.map Char.isAlpha).getD false = true ∧ pre.all isSchemeChar then
      (lowerAscii pre, post)
    else ([], url)

/-- Result of `urllib.parse.urlsplit`. -/
structure UrlSplit where
  scheme : PyStr
  netloc : PyStr
  path : PyStr
  query : PyStr
  fragment : PyStr
deriving DecidableEq, Repr

/-- The fragment and query extraction of `urlsplit`: the fragment is
everything after the FIRST `#`, then the query is everything after the first
`?` of what remains. -/
def splitFrag (scheme netloc rest : PyStr) : UrlSplit :=
  let fr := match splitOnce '#' rest with
    | some p => p
    | none => (rest, [])
  let pq := match splitOnce '?' fr.1 with
    | some p => p
    | none => (fr.1, [])
  ⟨scheme, netloc, pq.1, pq.2, fr.2⟩

/-- The mismatched-bracket test of `urlsplit`, which raises
`ValueError("Invalid IPv6 URL")`. -/
def bracketMismatch (netloc : PyStr) : Bool :=
  (netloc.contains '[' && !netloc.contains ']') ||
  (netloc.contains ']' && !netloc.contains '[')

/-- CPython 3.11 `urllib.parse.urlsplit` (with `allow_fragments=True`).
The error value is the `ValueError` message.  Two omissions, both of which
only make the model accept inputs CPython would reject: for a netloc
containing BOTH brackets CPython additionally validates the bracketed host
as an IPv6/IPvFuture address (raising otherwise), which needs a full IPv6
parser; and `_checknetloc` rejects non-ASCII netlocs whose NFKC
normalization introduces a delimiter character, which needs the Unicode
normalization tables.  Neither check can fire on a bracket-free ASCII
netloc, and theorems about such netlocs are unaffected. -/
def urlsplitE (url : PyStr) : Except PyStr UrlSplit :=
  let u0 := wsClean url
  let sp := splitScheme u0
  if (pystr "//").isPrefixOf sp.2 then
    let nl := takeUntilAny (pystr "/?#") (sp.2.drop 2)
    if bracketMismatch nl.1 then .error (pystr "Invalid IPv6 URL")
    else .ok (splitFrag sp.1 nl.1 nl.2)
  else .ok (splitFrag sp.1 [] sp.2)

/-- CPython `uses_params`: the schemes for which `urlparse` separates the
params component from the path. -/
def usesParams (scheme : PyStr) : Bool :=
  [pystr "", pystr "ftp", pystr "hdl", pystr "prospero", pystr "http",
   pystr "imap", pystr "https", pystr "shttp", pystr "rtsp", pystr "rtspu",
   pystr "sip", pystr "sips", pystr "mms", pystr "sftp", pystr "tel"].contains scheme

/-- CPython `urllib.parse._splitparams`: split the params off the path at the
first `;` after the last `/` (or the first `;` overall when there is no `/`);
when no such `;` exists the params are empty. -/
def splitParams (path : PyStr) : PyStr × PyStr :=
  match splitAtLast '/' path with
  | some (a, b) =>
    match splitOnce ';' b with
    | some (b1, b2) => (a ++ '/' :: b1, b2)
    | none => (path, [])
  | none =>
    match splitOnce ';' path with
    | some (p1, p2) => (p1, p2)
    | none => (path, [])

/-- Result of `urllib.parse.urlparse`. -/
structure UrlParts where
  scheme : PyStr
  netloc : PyStr
  path : PyStr
  params : PyStr
  query : PyStr
  fragment : PyStr
deriving DecidableEq, Repr

/-- CPython 3.11 `urllib.parse.urlparse`: `urlsplit` plus params
separation for schemes in `uses_params` when the path contains `;`. -/
def urlparseE (url : PyStr) : Except PyStr UrlParts :=
  (urlsplitE url).map (fun s =>
    if usesParams s.scheme && s.path.contains ';' then
      let pp := splitParams s.path
      ⟨s.scheme, s.netloc, pp.1, pp.2, s.query, s.fragment⟩
    else ⟨s.scheme, s.netloc, s.path, [], s.query, s.fragment⟩)

/-- CPython `urllib.parse.urlunsplit`. -/
def urlunsplit (scheme netloc path query fragment : PyStr) : PyStr :=
  let u1 :=
    if netloc ≠ [] ∨ (path ≠ [] ∧ (pystr "//").isPrefixOf path) then
      pystr "//" ++ netloc ++
        (if path ≠ [] ∧ ¬ (pystr "/").isPrefixOf path then '/' :: path else path)
    else path
  let u2 := if scheme ≠ [] then scheme ++ ':' :: u1 else u1
  let u3 := if query ≠ [] then u2 ++ '?' :: query else u2
  if fragment ≠ [] then u3 ++ '#' :: fragment else u3

/-- CPython `urllib.parse.urlunparse`: re-attach a non-empty params with `;`
and unsplit. -/
def urlunparse (p : UrlParts) : PyStr :=
  urlunsplit p.scheme p.netloc
    (if p.params ≠ [] then p.path ++ ';' :: p.params else p.path) p.query p.fragment

/-- The Python exception class a failure is raised with.  The source raises
`ValueError` for URL-format and already-exists failures and the generic
`Exception` for a non-zero exit status; a failure to spawn the process makes
`Popen` raise an `OSError` subclass (`FileNotFoundError` for a missing
binary, `PermissionError` for permission denied), which the
`except subprocess.SubprocessError` clause at line 58 does not catch, so it
propagates unwrapped (`osError`). -/
inductive PyKind where
  | valueError : PyKind
  | exception : PyKind
  | osError : PyKind
deriving DecidableEq, Repr

/-- A raised Python exception: its class and its message. -/
structure PyExc where
  kind : PyKind
  msg : PyStr
deriving DecidableEq, Repr

/-- The index of the LAST match of the literal `.git` inside `l` at a
positive position whose preceding prefix is newline-free.  This is the greedy
backtracking of the tail `(.+)\.git` of the source's SSH pattern under
`re.match`: `.+` (which cannot cross a newline and needs at least one
character) takes the longest prefix that still leaves `.git` next; the match
is not anchored at the end, so trailing characters after `.git` are
allowed. -/
def lastDotGitIdx (l : PyStr) : Option Nat :=
  ((List.range l.length).filter (fun i =>
    decide (1 ≤ i) && (pystr ".git").isPrefixOf (l.drop i)
      && !((l.take i).contains '\n'))).getLast?

/-- `re.match(r"git@([^:]+):([^/]+)/(.+)\.git", url)`, returning the three
groups (host, owner, repo).  `[^:]+` forces the host to be the non-empty
part before the first `:` after the literal `git@`; `[^/]+` forces the owner
to be the non-empty part before the next `/`; the repo group is resolved by
`lastDotGitIdx`. -/
def gitSshPattern (url : PyStr) : Option (PyStr × PyStr × PyStr) :=
  if (pystr "git@").isPrefixOf url then
    match splitOnce ':' (url.drop 4) with
    | none => none
    | some (host, r2) =>
      if host.isEmpty then none
      else
        match splitOnce '/' r2 with
        | none => none
        | some (owner, r3) =>
          if owner.isEmpty then none
          else
            match lastDotGitIdx r3 with
            | none => none
            | some i => some (host, owner, r3.take i)
  else none

/-- The SSH test of `parse_git_url` line 73: the string contains `@` and `:`
and does not start with `http://` or `https://`. -/
def sshGuard (url : PyStr) : Bool :=
  url.contains '@' && url.contains ':' &&
    !((pystr "http://").isPrefixOf url || (pystr "https://").isPrefixOf url)

/-- The HTTPS handling of `parse_git_url` (lines 82-98): `urlparse`, require
at least two parts in the slash-split of the slash-stripped path, derive the
repository name with `replace(".git", "")` on the last part, and when a
truthy token is supplied and the scheme is http or https, embed
`oauth2:<token>@` into an `@`-free netloc and reassemble with
`urlunparse`. -/
def parseHttps (url : PyStr) (token : Option PyStr) : Except PyExc (PyStr × PyStr) :=
  match urlparseE url with
  | .error m => .error ⟨.valueError, m⟩
  | .ok parsed =>
    let path_parts := pySplit '/' (pyStripSet (pystr "/") parsed.path)
    if path_parts.length < 2 then
      .error ⟨.valueError, pystr "Invalid Git URL format: " ++ url⟩
    else
      let repo_name := pyReplace (pystr ".git") [] (path_parts.getLastD [])
      let url2 :=
        match token with
        | none => url
        | some t =>
          if !t.isEmpty && (parsed.scheme == pystr "http" || parsed.scheme == pystr "https") then
            let netloc :=
              if !(parsed.netloc.contains '@') then
                pystr "oauth2:" ++ t ++ '@' :: parsed.netloc
              else parsed.netloc
            urlunparse ⟨parsed.scheme, netloc, parsed.path, parsed.params,
              parsed.query, parsed.fragment⟩
          else url
      .ok (repo_name, url2)

/-- `GitOperations.parse_git_url(url, token)` (lines 61-98): SSH URLs are
matched against the SSH pattern and returned unchanged with the name
`repo.strip(".git")`; everything else goes through the HTTPS handling. -/
def parse_git_url (url : PyStr) (token : Option PyStr) : Except PyExc (PyStr × PyStr) :=
  if sshGuard url then
    match gitSshPattern url with
    | some g => .ok (pyStripSet (pystr ".git") g.2.2, url)
    | none => parseHttps url token
  else parseHttps url token

/-- Whether `parse_git_url` takes the early SSH return for `url` (guard true
and pattern matched). -/
def sshClassified (url : PyStr) : Bool :=
  sshGuard url && (gitSshPattern url).isSome

/-- POSIX `os.path.isabs`. -/
def isAbs (p : PyStr) : Bool := (pystr "/").isPrefixOf p

/-- POSIX `os.path.join` for two arguments. -/
def posixJoin (a b : PyStr) : PyStr :=
  if isAbs b then b
  else if a = [] ∨ a.getLast? = some '/' then a ++ b
  else a ++ '/' :: b

/-- POSIX `os.path.normpath`. -/
def posixNormpath (p : PyStr) : PyStr :=
  if p = [] then pystr "."
  else
    let initialSlashes : Nat :=
      if (pystr "/").isPrefixOf p then
        if (pystr "//").isPrefixOf p ∧ ¬ (pystr "///").isPrefixOf p then 2 else 1
      else 0
    let newComps := (pySplit '/' p).foldl (fun acc comp =>
      if comp = [] ∨ comp = pystr "." then acc
      else if comp ≠ pystr ".."
          ∨ (initialSlashes = 0 ∧ acc = [])
          ∨ (acc ≠ [] ∧ acc.getLast? = some (pystr "..")) then acc ++ [comp]
      else if acc ≠ [] then acc.dropLast
      else acc) []
    let res := List.replicate initialSlashes '/' ++ joinWith '/' newComps
    if res = [] then pystr "." else res

/-- POSIX `os.path.abspath`, with the current working directory passed
explicitly (Python reads it with `os.getcwd()`, which always returns an
absolute path). -/
def posixAbspath (cwd p : PyStr) : PyStr :=
  posixNormpath (if isAbs p then p else posixJoin cwd p)

/-- The `GitOperations` instance state set up by `__init__` (lines 8-18):
`base_path` is made absolute with `os.path.abspath`; the `os.makedirs` call
only ensures the base directory exists and is not otherwise observable in
this model.  `ssh_key_path` only influences the subprocess environment
(`GIT_SSH_COMMAND`), which no modelled observation depends on. -/
structure GitOperations where
  base_path : PyStr
  ssh_key_path : Option PyStr

/-- `GitOperations.__init__(base_path, ssh_key_path)`. -/
def GitOperations.init (cwd base_path : PyStr) (ssh_key_path : Option PyStr) :
    GitOperations :=
  ⟨posixAbspath cwd base_path, ssh_key_path⟩

/-- Outcome of one attempt to run a subprocess with `Popen`/`communicate`:
the spawn itself can fail, making `Popen` raise an `OSError` subclass
carrying the OS error description (missing binary raises
`FileNotFoundError`, permission denied raises `PermissionError`); a
`subprocess.SubprocessError` can in principle be raised by the subprocess
machinery (no such error arises for this call shape — no timeout, no
check — but the source handles it on line 58); or the process runs to
completion with an exit status and captured output. -/
inductive RunResult where
  | spawnFailure : PyStr → RunResult
  | subprocessError : PyStr → RunResult
  | exited : Int → PyStr → PyStr → RunResult

/-- `GitOperations._run_command(command)` (lines 20-59) given the behaviour
`runner` of the operating system for the spawned command.  A spawn failure
(`Popen` raising an `OSError` subclass) is NOT caught by the
`except subprocess.SubprocessError` clause at line 58 — `OSError` is not a
`SubprocessError` — so it propagates unwrapped with the OS error
description.  A `subprocess.SubprocessError` raised inside the `try` block
is caught there and re-raised as
`Exception("Failed to execute command: <e>")`.  A non-zero exit status
raises `Exception("Command failed with error: <stderr>")` (that `Exception`
is not a `SubprocessError` either, so it also propagates); otherwise the
captured stdout and stderr are returned. -/
def runCommand (runner : List PyStr → RunResult) (command : List PyStr) :
    Except PyExc (PyStr × PyStr) :=
  match runner command with
  | .spawnFailure e => .error ⟨.osError, e⟩
  | .subprocessError e =>
    .error ⟨.exception, pystr "Failed to execute command: " ++ e⟩
  | .exited rc out err =>
    if rc ≠ 0 then .error ⟨.exception, pystr "Command failed with error: " ++ err⟩
    else .ok (out, err)

/-- `GitOperations.clone_repository(url, branch, token)` (lines 100-127).
The filesystem test `os.path.exists` is the parameter `pathExists`.  The
returned list is the trace of commands actually spawned, so an empty trace
means no subprocess was started. -/
def clone_repository (ops : GitOperations) (pathExists : PyStr → Bool)
    (runner : List PyStr → RunResult) (url : PyStr) (branch : Option PyStr)
    (token : Option PyStr) : Except PyExc PyStr × List (List PyStr) :=
  match parse_git_url url token with
  | .error e => (.error e, [])
  | .ok r =>
    let repo_path := posixJoin ops.base_path r.1
    if pathExists repo_path then
      (.error ⟨.valueError, pystr "Repository directory already exists: " ++ repo_path⟩, [])
    else
      let command := pystr "git" :: pystr "clone" ::
        ((match branch with
          | some b => if !b.isEmpty then [pystr "-b", b] else []
          | none => []) ++
         [pystr "--single-branch", r.2, repo_path])
      match runCommand runner command with
      | .error e => (.error e, [command])
      | .ok _ => (.ok repo_path, [command])

/-- The number of non-empty `c`-separated segments of `l`.  Used to state
the claims' hypotheses about "non-empty slash-separated segments". -/
def nonemptySegs (c : Char) (l : PyStr) : Nat :=
  ((pySplit c l).filter (fun s => !s.isEmpty)).length

/-- Whether an optional adjacent character is a segment boundary for the
separator `c`: absent (string edge) or equal to `c`. -/
def segBoundary (c : Char) (h : Option Char) : Bool :=
  match h with
  | none => true
  | some y => y == c

/-- No tab, CR or LF occurs in `l` (such strings pass untouched through the
byte removal of `urlsplit`). -/
def CleanStr (l : PyStr) : Prop := ∀ x ∈ l, isUnsafeByte x = false

/-- Decidable equality for `Except`, used to state concrete evaluations. -/
instance {ε α : Type} [DecidableEq ε] [DecidableEq α] : DecidableEq (Except ε α) :=
  fun x y =>
    match x, y with
    | .error a, .error b =>
      if h : a = b then .isTrue (by rw [h]) else .isFalse (fun hh => by cases hh; exact h rfl)
    | .ok a, .ok b =>
      if h : a = b then .isTrue (by rw [h]) else .isFalse (fun hh => by cases hh; exact h rfl)
    | .error _, .ok _ => .isFalse (fun hh => by cases hh)
    | .ok _, .error _ => .isFalse (fun hh => by cases hh)

theorem splitOnce_eq_none {c : Char} {l : PyStr} (h : c ∉ l) : splitOnce c l = none := by
  induction l with
  | nil => rfl
  | cons x xs ih =>
    simp only [List.mem_cons, not_or] at h
    have hx : ¬ x = c := fun e => h.1 e.symm
    simp only [splitOnce, if_neg hx, ih h.2, Option.map_none']

theorem splitOnce_append {c : Char} {a : PyStr} (b : PyStr) (h : c ∉ a) :
    splitOnce c (a ++ c :: b) = some (a, b) := by
  induction a with
  | nil => simp [splitOnce]
  | cons x xs ih =>
    simp only [List.mem_cons, not_or] at h
    have hx : ¬ x = c := fun e => h.1 e.symm
    simp only [List.cons_append, splitOnce, if_neg hx, List.append_eq]
    rw [ih h.2]
    rfl

theorem splitOnce_eq_some {c : Char} {l a b : PyStr} (h : splitOnce c l = some (a, b)) :
    l = a ++ c :: b ∧ c ∉ a := by
  induction l generalizing a b with
  | nil => simp [splitOnce] at h
  | cons x xs ih =>
    simp only [splitOnce] at h
    by_cases hx : x = c
    · rw [if_pos hx] at h
      obtain ⟨rfl, rfl⟩ := by simpa using h
      simp [hx]
    · rw [if_neg hx] at h
      match ha : splitOnce c xs with
      | none => rw [ha] at h; simp at h
      | some (a1, b1) =>
        rw [ha] at h
        simp only [Option.map_some', Option.some.injEq, Prod.mk.injEq] at h
        obtain ⟨h1, h2⟩ := ih ha
        refine ⟨?_, ?_⟩
        · rw [← h.1, ← h.2, List.cons_append, ← h1]
        · rw [← h.1]
          intro hm
          rcases List.mem_cons.mp hm with h3 | h3
          · exact hx h3.symm
          · exact h2 h3

theorem splitOnce_isSome_of_mem {c : Char} {l : PyStr} (h : c ∈ l) :
    ∃ a b, splitOnce c l = some (a, b) := by
  induction l with
  | nil => simp at h
  | cons x xs ih =>
    by_cases hx : x = c
    · exact ⟨[], xs, by simp [splitOnce, hx]⟩
    · have h1 : c ∈ xs := by
        rcases List.mem_cons.mp h with h2 | h2
        · exact absurd h2.symm hx
        · exact h2
      obtain ⟨a, b, hab⟩ := ih h1
      exact ⟨x :: a, b, by simp [splitOnce, if_neg hx, hab]⟩

theorem takeUntilAny_eq (stop a b : PyStr) (ha : ∀ x ∈ a, stop.contains x = false)
    (hb : b = [] ∨ ∃ y t, b = y :: t ∧ stop.contains y = true) :
    takeUntilAny stop (a ++ b) = (a, b) := by
  induction a with
  | nil =>
    rcases hb with rfl | ⟨y, t, rfl, hy⟩
    · rfl
    · simp only [List.nil_append, takeUntilAny]
      rw [if_pos hy]
  | cons x xs ih =>
    have hx : stop.contains x = false := ha x (List.mem_cons_self x xs)
    simp only [List.cons_append, takeUntilAny, List.append_eq]
    rw [if_neg (by rw [hx]; simp)]
    rw [ih (fun z hz => ha z (List.mem_cons_of_mem x hz))]

theorem takeUntilAny_spec (stop l : PyStr) :
    l = (takeUntilAny stop l).1 ++ (takeUntilAny stop l).2 ∧
    (∀ x ∈ (takeUntilAny stop l).1, stop.contains x = false) ∧
    ((takeUntilAny stop l).2 = [] ∨
      ∃ y t, (takeUntilAny stop l).2 = y :: t ∧ stop.contains y = true) := by
  induction l with
  | nil => simp [takeUntilAny]
  | cons x xs ih =>
    simp only [takeUntilAny]
    by_cases hx : stop.contains x = true
    · rw [if_pos hx]
      exact ⟨rfl, by simp, Or.inr ⟨x, xs, rfl, hx⟩⟩
    · rw [if_neg hx]
      refine ⟨by simpa using ih.1, ?_, ih.2.2⟩
      intro z hz
      rcases List.mem_cons.mp hz with h1 | h1
      · rw [h1]; simpa using hx
      · exact ih.2.1 z h1

theorem pySplit_ne_nil (c : Char) (l : PyStr) : pySplit c l ≠ [] := by
  induction l with
  | nil => simp [pySplit]
  | cons x xs ih =>
    simp only [pySplit]
    by_cases hx : x = c
    · rw [if_pos hx]; simp
    · rw [if_neg hx]
      match h : pySplit c xs with
      | [] => simp
      | a :: t => simp

theorem pySplit_length (c : Char) (l : PyStr) :
    (pySplit c l).length = l.count c + 1 := by
  induction l with
  | nil => simp [pySplit]
  | cons x xs ih =>
    simp only [pySplit, List.count_cons]
    by_cases hx : x = c
    · rw [if_pos hx, if_pos (by exact beq_iff_eq.mpr hx)]
      simp [ih]
    · rw [if_neg hx, if_neg (by simpa using hx)]
      match h : pySplit c xs with
      | [] => exact absurd h (pySplit_ne_nil c xs)
      | a :: t =>
        rw [h] at ih
        simpa using ih

theorem pySplit_sep {c : Char} {a : PyStr} (b : PyStr) (h : c ∉ a) :
    pySplit c (a ++ c :: b) = a :: pySplit c b := by
  induction a with
  | nil => simp [pySplit]
  | cons x xs ih =>
    simp only [List.mem_cons, not_or] at h
    have hx : ¬ x = c := fun e => h.1 e.symm
    simp only [List.cons_append, pySplit, if_neg hx, List.append_eq]
    rw [ih h.2]

theorem pySplit_eq_single {c : Char} {l : PyStr} (h : c ∉ l) : pySplit c l = [l] := by
  induction l with
  | nil => rfl
  | cons x xs ih =>
    simp only [List.mem_cons, not_or] at h
    have hx : ¬ x = c := fun e => h.1 e.symm
    simp only [pySplit, if_neg hx, ih h.2]

theorem nonemptySegs_cons (c x : Char) (xs : PyStr) :
    nonemptySegs c (x :: xs) = nonemptySegs c xs +
      (if x = c then 0 else if segBoundary c xs.head? then 1 else 0) := by
  by_cases hx : x = c
  · unfold nonemptySegs
    simp only [pySplit, if_pos hx, List.filter_cons]
    simp
  · rcases xs with _ | ⟨y, ys⟩
    · unfold nonemptySegs segBoundary
      simp [pySplit, hx, List.filter]
    · by_cases hy : y = c
      · unfold nonemptySegs segBoundary
        simp only [pySplit, if_neg hx, if_pos hy, List.head?_cons]
        simp [hx, hy, List.filter_cons]
      · unfold nonemptySegs segBoundary
        simp only [pySplit, if_neg hx, if_neg hy, List.head?_cons]
        match h : pySplit c ys with
        | [] => exact absurd h (pySplit_ne_nil c ys)
        | a :: t => simp [hx, hy, List.filter_cons]

theorem nonemptySegs_concat (c x : Char) (l : PyStr) :
    nonemptySegs c (l ++ [x]) = nonemptySegs c l +
      (if x = c then 0 else if segBoundary c l.getLast? then 1 else 0) := by
  induction l with
  | nil =>
    by_cases hx : x = c <;>
      simp [nonemptySegs, pySplit, segBoundary, hx, List.filter]
  | cons y ys ih =>
    rw [List.cons_append, nonemptySegs_cons, nonemptySegs_cons, ih]
    rcases ys with _ | ⟨z, zs⟩
    · simp only [List.nil_append, List.head?_cons, List.head?_nil, List.getLast?_singleton,
        List.getLast?_nil, segBoundary]
      by_cases hyc : y = c <;> by_cases hxc : x = c <;>
        simp [hyc, hxc, beq_iff_eq]
    · simp only [List.cons_append, List.head?_cons, List.getLast?_cons_cons, segBoundary]
      omega

theorem nonemptySegs_reverse (c : Char) (l : PyStr) :
    nonemptySegs c l.reverse = nonemptySegs c l := by
  induction l with
  | nil => rfl
  | cons x xs ih =>
    rw [List.reverse_cons, nonemptySegs_concat, nonemptySegs_cons, ih,
      List.getLast?_reverse]

theorem nonemptySegs_dropWhile (p : Char → Bool) (c : Char) (l : PyStr)
    (hp : ∀ x, p x = true → x = c) :
    nonemptySegs c (l.dropWhile p) = nonemptySegs c l := by
  induction l with
  | nil => rfl
  | cons x xs ih =>
    rw [List.dropWhile_cons]
    by_cases hx : p x = true
    · rw [if_pos hx, ih, nonemptySegs_cons, if_pos (hp x hx)]
      omega
    · rw [if_neg hx]

theorem nonemptySegs_strip (l : PyStr) :
    nonemptySegs '/' (pyStripSet (pystr "/") l) = nonemptySegs '/' l := by
  unfold pyStripSet
  have hp : ∀ x, ((pystr "/").contains x) = true → x = '/' := by
    intro x hx
    have := List.elem_iff.mp hx
    simpa [pystr] using this
  rw [nonemptySegs_reverse, nonemptySegs_dropWhile _ '/' _ hp,
    nonemptySegs_reverse, nonemptySegs_dropWhile _ '/' _ hp]

theorem head?_dropWhile_false {p : Char → Bool} {l : PyStr} {y : Char}
    (h : (l.dropWhile p).head? = some y) : p y = false := by
  have := List.head?_dropWhile_not p l
  rw [h] at this
  exact this

theorem getLast?_dropWhile (p : Char → Bool) (l : PyStr)
    (h : l.dropWhile p ≠ []) : (l.dropWhile p).getLast? = l.getLast? := by
  induction l with
  | nil => simp at h
  | cons x xs ih =>
    rw [List.dropWhile_cons]
    by_cases hx : p x = true
    · rw [if_pos hx]
      rw [List.dropWhile_cons, if_pos hx] at h
      rw [ih h, List.getLast?_cons]
      have hxs : xs ≠ [] := by
        intro h0
        rw [h0] at h
        simp at h
      match hg : xs.getLast? with
      | none => exact absurd (List.getLast?_eq_none_iff.mp hg) hxs
      | some d => simp
    · rw [if_neg hx]

theorem nonemptySegs_pos_of_getLast (c : Char) (l : PyStr) :
    ∀ d, l.getLast? = some d → (d == c) = false → 1 ≤ nonemptySegs c l := by
  induction l using List.reverseRecOn with
  | nil => intro d h _; simp at h
  | append_singleton ys y ih =>
    intro d h hd
    rw [List.getLast?_concat] at h
    have hyd : y = d := by simpa using h
    subst hyd
    rw [nonemptySegs_concat]
    have hyc : ¬ y = c := by simpa using hd
    rw [if_neg hyc]
    by_cases hb : segBoundary c ys.getLast? = true
    · rw [if_pos hb]; omega
    · rw [if_neg hb]
      match he : ys.getLast? with
      | none => rw [he] at hb; simp [segBoundary] at hb
      | some e =>
        rw [he] at hb
        have hec : (e == c) = false := by
          simp only [segBoundary] at hb
          simpa using hb
        have := ih e he hec
        omega

theorem nonemptySegs_ge_two (c : Char) (t : PyStr)
    (hh : segBoundary c t.head? = false) (hl : segBoundary c t.getLast? = false)
    (hlen : 2 ≤ (pySplit c t).length) : 2 ≤ nonemptySegs c t := by
  have hc : c ∈ t := by
    rw [pySplit_length] at hlen
    exact List.count_pos_iff.mp (by omega)
  obtain ⟨a, b, hab⟩ := splitOnce_isSome_of_mem hc
  obtain ⟨ht, hca⟩ := splitOnce_eq_some hab
  have ha : a ≠ [] := by
    intro h0
    subst h0
    rw [ht] at hh
    simp [segBoundary] at hh
  have hb : b ≠ [] := by
    intro h0
    subst h0
    rw [ht, List.getLast?_concat] at hl
    simp [segBoundary] at hl
  have hgb : b.getLast? = t.getLast? := by
    match hg : b.getLast? with
    | none => exact absurd (List.getLast?_eq_none_iff.mp hg) hb
    | some d =>
      rw [ht, List.getLast?_append]
      match hb2 : b, hg with
      | b0 :: bs, hg => rw [List.getLast?_cons_cons, hg]; rfl
  have hFb : 1 ≤ nonemptySegs c b := by
    match hg : b.getLast? with
    | none => exact absurd (List.getLast?_eq_none_iff.mp hg) hb
    | some d =>
      apply nonemptySegs_pos_of_getLast c b d hg
      rw [hgb] at hg
      rw [hg] at hl
      simp only [segBoundary] at hl
      simpa using hl
  have hFt : nonemptySegs c t = 1 + nonemptySegs c b := by
    rw [ht]
    unfold nonemptySegs
    rw [pySplit_sep b hca, List.filter_cons,
      if_pos (by cases a with | nil => exact absurd rfl ha | cons u us => rfl)]
    simp [Nat.add_comm]
  omega

theorem strip_head_boundary (chars s : PyStr) (hs : pyStripSet chars s ≠ []) :
    ∃ y, (pyStripSet chars s).head? = some y ∧ chars.contains y = false := by
  unfold pyStripSet at hs ⊢
  set p := fun c => chars.contains c with hp
  set m := s.dropWhile p with hm
  set w := m.reverse.dropWhile p with hw
  have hwne : w ≠ [] := by
    intro h0
    rw [h0] at hs
    simp at hs
  have h1 : w.reverse.head? = w.getLast? := List.head?_reverse w
  have h2 : w.getLast? = m.reverse.getLast? := getLast?_dropWhile p m.reverse (by rw [← hw]; exact hwne)
  have h3 : m.reverse.getLast? = m.head? := List.getLast?_reverse m
  have hmne : m ≠ [] := by
    intro h0
    rw [h0] at hw
    simp at hw
    exact hwne hw
  match hh : m.head? with
  | none => exact absurd (List.head?_eq_none_iff.mp hh) hmne
  | some y =>
    refine ⟨y, ?_, ?_⟩
    · rw [h1, h2, h3, hh]
    · exact head?_dropWhile_false (by rw [← hm, hh])

theorem strip_getLast_boundary (chars s : PyStr) (hs : pyStripSet chars s ≠ []) :
    ∃ y, (pyStripSet chars s).getLast? = some y ∧ chars.contains y = false := by
  unfold pyStripSet at hs ⊢
  set p := fun c => chars.contains c with hp
  set m := s.dropWhile p with hm
  set w := m.reverse.dropWhile p with hw
  have hwne : w ≠ [] := by
    intro h0
    rw [h0] at hs
    simp at hs
  have h1 : w.reverse.getLast? = w.head? := List.getLast?_reverse w
  match hh : w.head? with
  | none => exact absurd (List.head?_eq_none_iff.mp hh) hwne
  | some y =>
    refine ⟨y, ?_, ?_⟩
    · rw [h1, hh]
    · exact head?_dropWhile_false (by rw [← hw, hh])

theorem seg_code_iff (path : PyStr) :
    2 ≤ nonemptySegs '/' path ↔
    2 ≤ (pySplit '/' (pyStripSet (pystr "/") path)).length := by
  constructor
  · intro h
    calc 2 ≤ nonemptySegs '/' (pyStripSet (pystr "/") path) := by
          rw [nonemptySegs_strip]; exact h
      _ ≤ (pySplit '/' (pyStripSet (pystr "/") path)).length :=
          List.length_filter_le _ _
  · intro h
    rw [← nonemptySegs_strip]
    have hs : pyStripSet (pystr "/") path ≠ [] := by
      intro h0
      rw [h0] at h
      simp [pySplit] at h
    obtain ⟨y1, hy1, hc1⟩ := strip_head_boundary (pystr "/") path hs
    obtain ⟨y2, hy2, hc2⟩ := strip_getLast_boundary (pystr "/") path hs
    apply nonemptySegs_ge_two '/' _ ?_ ?_ h
    · rw [hy1]
      simp only [segBoundary]
      have : ¬ y1 = '/' := by
        intro h0
        rw [h0] at hc1
        simp [pystr] at hc1
      simpa using this
    · rw [hy2]
      simp only [segBoundary]
      have : ¬ y2 = '/' := by
        intro h0
        rw [h0] at hc2
        simp [pystr] at hc2
      simpa using this

theorem not_mem_of_splitOnce_eq_none {c : Char} {l : PyStr}
    (h : splitOnce c l = none) : c ∉ l := by
  intro hm
  obtain ⟨a, b, hs⟩ := splitOnce_isSome_of_mem hm
  rw [hs] at h
  simp at h

theorem splitAtLast_eq_some {c : Char} {l a b : PyStr}
    (h : splitAtLast c l = some (a, b)) : l = a ++ c :: b ∧ c ∉ b := by
  unfold splitAtLast at h
  match hs : splitOnce c l.reverse with
  | none => rw [hs] at h; simp at h
  | some (rb, ra) =>
    rw [hs] at h
    simp only [Option.some.injEq, Prod.mk.injEq] at h
    obtain ⟨h1, h2⟩ := splitOnce_eq_some hs
    refine ⟨?_, ?_⟩
    · rw [← h.1, ← h.2]
      have := congrArg List.reverse h1
      simpa using this
    · rw [← h.2]
      intro hm
      exact h2 (List.mem_reverse.mp hm)

theorem splitAtLast_append {c : Char} (a : PyStr) {b : PyStr} (h : c ∉ b) :
    splitAtLast c (a ++ c :: b) = some (a, b) := by
  unfold splitAtLast
  have hrev : (a ++ c :: b).reverse = b.reverse ++ c :: a.reverse := by simp
  rw [hrev, splitOnce_append _ (fun hm => h (List.mem_reverse.mp hm))]
  simp

theorem splitAtLast_eq_none {c : Char} {l : PyStr} (h : c ∉ l) :
    splitAtLast c l = none := by
  unfold splitAtLast
  rw [splitOnce_eq_none (fun hc => h (List.mem_reverse.mp hc))]

theorem splitParams_facts (f : PyStr) :
    (splitParams f).1 <+: f ∧
    (∀ x ∈ (splitParams f).2, x ∈ f) ∧
    '/' ∉ (splitParams f).2 ∧
    (∀ x y, splitAtLast '/' (splitParams f).1 = some (x, y) → ';' ∉ y) := by
  match h1 : splitAtLast '/' f with
  | some (a, b) =>
    obtain ⟨hf, hsb⟩ := splitAtLast_eq_some h1
    match h2 : splitOnce ';' b with
    | some (b1, b2) =>
      obtain ⟨hb, hsb1⟩ := splitOnce_eq_some h2
      have hsp : splitParams f = (a ++ '/' :: b1, b2) := by
        unfold splitParams
        simp only [h1, h2]
      simp only [hsp]
      refine ⟨?_, ?_, ?_, ?_⟩
      · rw [hf, hb]
        exact ⟨';' :: b2, by simp⟩
      · intro x hx
        rw [hf, hb]
        simp only [List.mem_append, List.mem_cons]
        exact Or.inr (Or.inr (Or.inr (Or.inr hx)))
      · intro hm
        exact hsb (hb ▸ List.mem_append.mpr (Or.inr (List.mem_cons_of_mem _ hm)))
      · intro x y hxy
        have hsb1' : '/' ∉ b1 := fun hm =>
          hsb (hb ▸ List.mem_append.mpr (Or.inl hm))
        rw [splitAtLast_append a hsb1'] at hxy
        simp only [Option.some.injEq, Prod.mk.injEq] at hxy
        rw [← hxy.2]
        exact hsb1
    | none =>
      have hsp : splitParams f = (f, []) := by
        unfold splitParams
        simp only [h1, h2]
      simp only [hsp]
      refine ⟨List.prefix_refl f, by simp, by simp, ?_⟩
      intro x y hxy
      rw [h1] at hxy
      simp only [Option.some.injEq, Prod.mk.injEq] at hxy
      rw [← hxy.2]
      exact not_mem_of_splitOnce_eq_none h2
  | none =>
    have hslash : '/' ∉ f := by
      intro hm
      obtain ⟨a0, b0, hs0⟩ := splitOnce_isSome_of_mem (List.mem_reverse.mpr hm)
      unfold splitAtLast at h1
      rw [hs0] at h1
      simp at h1
    match h2 : splitOnce ';' f with
    | some (p1, p2) =>
      obtain ⟨hf, hp1⟩ := splitOnce_eq_some h2
      have hsp : splitParams f = (p1, p2) := by
        unfold splitParams
        simp only [h1, h2]
      simp only [hsp]
      refine ⟨?_, ?_, ?_, ?_⟩
      · rw [hf]; exact ⟨';' :: p2, rfl⟩
      · intro x hx
        rw [hf]
        simp only [List.mem_append, List.mem_cons]
        exact Or.inr (Or.inr hx)
      · intro hm
        exact hslash (hf ▸ List.mem_append.mpr (Or.inr (List.mem_cons_of_mem _ hm)))
      · intro x y hxy
        have hnp1 : '/' ∉ p1 := fun hm => hslash (hf ▸ List.mem_append.mpr (Or.inl hm))
        rw [splitAtLast_eq_none hnp1] at hxy
        simp at hxy
    | none =>
      have hsp : splitParams f = (f, []) := by
        unfold splitParams
        simp only [h1, h2]
      simp only [hsp]
      refine ⟨List.prefix_refl f, by simp, by simp, ?_⟩
      intro x y hxy
      rw [h1] at hxy
      simp at hxy

theorem cleanStr_append {a b : PyStr} (ha : CleanStr a) (hb : CleanStr b) :
    CleanStr (a ++ b) := by
  intro x hx
  rcases List.mem_append.mp hx with h | h
  · exact ha x h
  · exact hb x h

theorem cleanStr_sub {a l : PyStr} (h : CleanStr l) (hs : ∀ x ∈ a, x ∈ l) :
    CleanStr a := fun x hx => h x (hs x hx)

theorem cleanStr_of_filter (l : PyStr) :
    CleanStr (l.filter (fun c => !isUnsafeByte c)) := by
  intro x hx
  have := List.of_mem_filter hx
  simpa using this

theorem wsClean_eq_self {l : PyStr} (hcl : CleanStr l)
    (hhd : ∀ y, l.head? = some y → isC0OrSpace y = false) : wsClean l = l := by
  unfold wsClean
  have h1 : l.dropWhile isC0OrSpace = l := by
    cases l with
    | nil => rfl
    | cons x xs =>
      rw [List.dropWhile_cons, if_neg (by rw [hhd x rfl]; simp)]
  rw [h1, List.filter_eq_self.mpr]
  intro a ha
  rw [hcl a ha]
  rfl

theorem wsClean_http_start {url : PyStr}
    (h : (pystr "http://").isPrefixOf url = true ∨ (pystr "https://").isPrefixOf url = true) :
    ∃ sch t, (sch = pystr "http" ∨ sch = pystr "https") ∧ CleanStr t ∧
      wsClean url = sch ++ ':' :: '/' :: '/' :: t := by
  rcases h with h | h
  · obtain ⟨t0, ht0⟩ := List.isPrefixOf_iff_prefix.mp h
    refine ⟨pystr "http", t0.filter (fun c => !isUnsafeByte c), Or.inl rfl,
      cleanStr_of_filter t0, ?_⟩
    rw [← ht0]
    unfold wsClean
    rw [show pystr "http://" ++ t0 = 'h' :: (pystr "ttp://" ++ t0) from rfl]
    rw [List.dropWhile_cons, if_neg (by decide)]
    rw [show 'h' :: (pystr "ttp://" ++ t0) = pystr "http://" ++ t0 from rfl]
    rw [List.filter_append]
    rfl
  · obtain ⟨t0, ht0⟩ := List.isPrefixOf_iff_prefix.mp h
    refine ⟨pystr "https", t0.filter (fun c => !isUnsafeByte c), Or.inr rfl,
      cleanStr_of_filter t0, ?_⟩
    rw [← ht0]
    unfold wsClean
    rw [show pystr "https://" ++ t0 = 'h' :: (pystr "ttps://" ++ t0) from rfl]
    rw [List.dropWhile_cons, if_neg (by decide)]
    rw [show 'h' :: (pystr "ttps://" ++ t0) = pystr "https://" ++ t0 from rfl]
    rw [List.filter_append]
    rfl

theorem splitScheme_http (sch rest : PyStr)
    (hsch : sch = pystr "http" ∨ sch = pystr "https") :
    splitScheme (sch ++ ':' :: rest) = (sch, rest) := by
  unfold splitScheme
  simp only [splitOnce_append rest (by rcases hsch with rfl | rfl <;> decide : ':' ∉ sch)]
  rw [if_pos ⟨by rcases hsch with rfl | rfl <;> decide,
    by rcases hsch with rfl | rfl <;> decide,
    by rcases hsch with rfl | rfl <;> decide⟩]
  rcases hsch with rfl | rfl <;> rfl

theorem urlsplitE_http_shape (url sch t : PyStr)
    (hsch : sch = pystr "http" ∨ sch = pystr "https")
    (hw : wsClean url = sch ++ ':' :: '/' :: '/' :: t) :
    urlsplitE url =
      (if bracketMismatch (takeUntilAny (pystr "/?#") t).1 then
        Except.error (pystr "Invalid IPv6 URL")
      else Except.ok (splitFrag sch (takeUntilAny (pystr "/?#") t).1
        (takeUntilAny (pystr "/?#") t).2)) := by
  simp only [urlsplitE]
  rw [hw, splitScheme_http sch ('/' :: '/' :: t) hsch]
  rw [if_pos (by simp [pystr, List.isPrefixOf])]
  rfl

theorem contains_eq_false_iff {l : PyStr} {c : Char} : l.contains c = false ↔ c ∉ l := by
  constructor
  · intro h hm
    have : l.contains c = true := List.elem_iff.mpr hm
    rw [h] at this
    cases this
  · intro h
    cases hc : l.contains c with
    | false => rfl
    | true => exact absurd (List.elem_iff.mp hc) h

theorem splitFrag_facts (scheme netloc rest : PyStr) :
    (splitFrag scheme netloc rest).scheme = scheme ∧
    (splitFrag scheme netloc rest).netloc = netloc ∧
    (splitFrag scheme netloc rest).path <+: rest ∧
    (∀ x ∈ (splitFrag scheme netloc rest).query, x ∈ rest) ∧
    (∀ x ∈ (splitFrag scheme netloc rest).fragment, x ∈ rest) ∧
    '#' ∉ (splitFrag scheme netloc rest).path ∧
    '?' ∉ (splitFrag scheme netloc rest).path ∧
    '#' ∉ (splitFrag scheme netloc rest).query := by
  unfold splitFrag
  match h1 : splitOnce '#' rest with
  | none =>
    have hh : '#' ∉ rest := not_mem_of_splitOnce_eq_none h1
    match h2 : splitOnce '?' rest with
    | none =>
      have hq : '?' ∉ rest := not_mem_of_splitOnce_eq_none h2
      simp only [h1, h2]
      exact ⟨trivial, trivial, List.prefix_refl rest, by simp, by simp, hh, hq, by simp⟩
    | some (a, q) =>
      obtain ⟨hr, hqa⟩ := splitOnce_eq_some h2
      simp only [h1, h2]
      refine ⟨trivial, trivial, ?_, ?_, by simp, ?_, hqa, ?_⟩
      · rw [hr]; exact ⟨'?' :: q, rfl⟩
      · intro x hx
        rw [hr]
        exact List.mem_append.mpr (Or.inr (List.mem_cons_of_mem _ hx))
      · intro hm
        exact hh (hr ▸ List.mem_append.mpr (Or.inl hm))
      · intro hm
        exact hh (hr ▸ List.mem_append.mpr (Or.inr (List.mem_cons_of_mem _ hm)))
  | some (u3, frag) =>
    obtain ⟨hr, hu3⟩ := splitOnce_eq_some h1
    match h2 : splitOnce '?' u3 with
    | none =>
      have hq : '?' ∉ u3 := not_mem_of_splitOnce_eq_none h2
      simp only [h1, h2]
      refine ⟨trivial, trivial, ?_, by simp, ?_, hu3, hq, by simp⟩
      · rw [hr]; exact ⟨'#' :: frag, rfl⟩
      · intro x hx
        rw [hr]
        exact List.mem_append.mpr (Or.inr (List.mem_cons_of_mem _ hx))
    | some (a, q) =>
      obtain ⟨hu, hqa⟩ := splitOnce_eq_some h2
      simp only [h1, h2]
      refine ⟨trivial, trivial, ?_, ?_, ?_, ?_, hqa, ?_⟩
      · rw [hr, hu]
        exact ⟨'?' :: q ++ '#' :: frag, by simp⟩
      · intro x hx
        rw [hr, hu]
        simp only [List.mem_append, List.mem_cons]
        exact Or.inl (Or.inr (Or.inr hx))
      · intro x hx
        rw [hr]
        exact List.mem_append.mpr (Or.inr (List.mem_cons_of_mem _ hx))
      · intro hm
        exact hu3 (hu ▸ List.mem_append.mpr (Or.inl hm))
      · intro hm
        exact hu3 (hu ▸ List.mem_append.mpr (Or.inr (List.mem_cons_of_mem _ hm)))

theorem urlparse_http_inv (url : PyStr) (p : UrlParts)
    (hstart : (pystr "http://").isPrefixOf url = true ∨
      (pystr "https://").isPrefixOf url = true)
    (hok : urlparseE url = .ok p) :
    (p.scheme = pystr "http" ∨ p.scheme = pystr "https") ∧
    (∀ x ∈ p.netloc, (pystr "/?#").contains x = false) ∧
    bracketMismatch p.netloc = false ∧
    CleanStr p.netloc ∧ CleanStr p.path ∧ CleanStr p.params ∧ CleanStr p.query ∧
    CleanStr p.fragment ∧
    (p.path = [] ∨ ∃ pr, p.path = '/' :: pr) ∧
    '#' ∉ p.path ∧ '?' ∉ p.path ∧ '#' ∉ p.params ∧ '?' ∉ p.params ∧ '/' ∉ p.params ∧
    '#' ∉ p.query ∧
    (∀ x y, splitAtLast '/' p.path = some (x, y) → ';' ∉ y) := by
  obtain ⟨sch, t, hsch, hct, hw⟩ := wsClean_http_start hstart
  unfold urlparseE at hok
  rw [urlsplitE_http_shape url sch t hsch hw] at hok
  by_cases hbr : bracketMismatch (takeUntilAny (pystr "/?#") t).1 = true
  · rw [if_pos hbr] at hok
    simp [Except.map] at hok
  · rw [if_neg hbr] at hok
    simp only [Except.map, Except.ok.injEq] at hok
    obtain ⟨hts, hnstop, hbnd⟩ := takeUntilAny_spec (pystr "/?#") t
    set n := (takeUntilAny (pystr "/?#") t).1 with hn
    set r := (takeUntilAny (pystr "/?#") t).2 with hr
    have hcn : CleanStr n := cleanStr_sub hct (fun x hx => hts ▸ List.mem_append.mpr (Or.inl hx))
    have hcr : CleanStr r := cleanStr_sub hct (fun x hx => hts ▸ List.mem_append.mpr (Or.inr hx))
    obtain ⟨hfsc, hfnl, hfpre, hfq, hff, hfph, hfpq, hfqh⟩ := splitFrag_facts sch n r
    set s := splitFrag sch n r with hs
    have hspath : ∀ x ∈ s.path, x ∈ r := fun x hx => hfpre.subset hx
    have hpstart : s.path = [] ∨ ∃ pr, s.path = '/' :: pr := by
      rcases hbnd with hr0 | ⟨y, t0, hy, hystop⟩
      · left
        have := List.prefix_nil.mp (hr0 ▸ hfpre)
        exact this
      · match hp0 : s.path with
        | [] => exact Or.inl rfl
        | z :: zs =>
          right
          have hz : z = y := by
            have hpre2 := hfpre
            rw [hp0, hy] at hpre2
            obtain ⟨w, hw2⟩ := hpre2
            rw [List.cons_append] at hw2
            injection hw2 with h1 _
          have hyv : y = '/' ∨ y = '?' ∨ y = '#' := by
            have := List.elem_iff.mp hystop
            simpa [pystr] using this
          rcases hyv with rfl | rfl | rfl
          · exact ⟨zs, by rw [hz]⟩
          · exact absurd (hp0 ▸ List.mem_cons_self z zs) (hz ▸ hfpq)
          · exact absurd (hp0 ▸ List.mem_cons_self z zs) (hz ▸ hfph)
    -- now the params split
    rw [← hok]
    by_cases hcond : (usesParams s.scheme && s.path.contains ';') = true
    · rw [if_pos hcond]
      obtain ⟨hp1, hp2, hp3, hp4⟩ := splitParams_facts s.path
      have hsub1 : ∀ x ∈ (splitParams s.path).1, x ∈ s.path := fun x hx => hp1.subset hx
      refine ⟨by rw [hfsc]; exact hsch, ?_, ?_, ?_, ?_, ?_, ?_, ?_, ?_, ?_, ?_, ?_, ?_, ?_, ?_, ?_⟩
      · intro x hx
        exact hnstop x (hfnl ▸ hx)
      · rw [hfnl]; simpa using hbr
      · rw [hfnl]; exact hcn
      · exact cleanStr_sub hcr (fun x hx => hspath x (hsub1 x hx))
      · exact cleanStr_sub hcr (fun x hx => hspath x (hp2 x hx))
      · exact cleanStr_sub hcr hfq
      · exact cleanStr_sub hcr hff
      · rcases hpstart with hp0 | ⟨pr, hpr⟩
        · left
          have : (splitParams s.path).1 <+: ([] : PyStr) := hp0 ▸ hp1
          exact List.prefix_nil.mp this
        · match hq0 : (splitParams s.path).1 with
          | [] => exact Or.inl rfl
          | z :: zs =>
            right
            have := hp1
            rw [hq0, hpr] at this
            obtain ⟨w, hw2⟩ := this
            have hz : z = '/' := by
              have h2 := hw2
              rw [List.cons_append] at h2
              injection h2 with h3 _
            exact ⟨zs, by rw [hz]⟩
      · exact fun hm => hfph (hsub1 _ hm)
      · exact fun hm => hfpq (hsub1 _ hm)
      · exact fun hm => hfph (hp2 _ hm)
      · exact fun hm => hfpq (hp2 _ hm)
      · exact hp3
      · exact hfqh
      · exact hp4
    · rw [if_neg hcond]
      have hsemi : ';' ∉ s.path := by
        have hup : usesParams s.scheme = true := by
          rw [hfsc]
          rcases hsch with rfl | rfl <;> decide
        rw [hup] at hcond
        simp only [Bool.true_and] at hcond
        exact contains_eq_false_iff.mp (by simpa using hcond)
      refine ⟨by rw [hfsc]; exact hsch, ?_, ?_, ?_, ?_, by simp [CleanStr], ?_, ?_, ?_, hfph, hfpq,
        by simp, by simp, by simp, hfqh, ?_⟩
      · intro x hx
        exact hnstop x (hfnl ▸ hx)
      · rw [hfnl]; simpa using hbr
      · rw [hfnl]; exact hcn
      · exact cleanStr_sub hcr hspath
      · exact cleanStr_sub hcr hfq
      · exact cleanStr_sub hcr hff
      · exact hpstart
      · intro x y hxy
        obtain ⟨hxy1, _⟩ := splitAtLast_eq_some hxy
        have hxy2 : s.path = x ++ '/' :: y := hxy1
        intro hm
        exact hsemi (hxy2 ▸ List.mem_append.mpr (Or.inr (List.mem_cons_of_mem _ hm)))

theorem cleanStr_cons {x : Char} {l : PyStr} (hx : isUnsafeByte x = false)
    (hl : CleanStr l) : CleanStr (x :: l) := by
  intro z hz
  rcases List.mem_cons.mp hz with rfl | h
  · exact hx
  · exact hl z h

theorem cleanStr_nil : CleanStr [] := by intro z hz; cases hz

theorem splitAtLast_isSome_of_mem {c : Char} {l : PyStr} (h : c ∈ l) :
    ∃ a b, splitAtLast c l = some (a, b) := by
  obtain ⟨ra, rb, hsr⟩ := splitOnce_isSome_of_mem (List.mem_reverse.mpr h)
  refine ⟨rb.reverse, ra.reverse, ?_⟩
  unfold splitAtLast
  rw [hsr]

theorem urlparse_unparse_roundtrip
    (sch netloc path params query fragment : PyStr)
    (hsch : sch = pystr "http" ∨ sch = pystr "https")
    (hnn : netloc ≠ [])
    (hnet : ∀ x ∈ netloc, (pystr "/?#").contains x = false)
    (hbr : bracketMismatch netloc = false)
    (hcn : CleanStr netloc) (hcp : CleanStr path) (hcpr : CleanStr params)
    (hcq : CleanStr query) (hcf : CleanStr fragment)
    (hpath : ∃ pr, path = '/' :: pr)
    (hph : '#' ∉ path) (hpq : '?' ∉ path)
    (hprh : '#' ∉ params) (hprq : '?' ∉ params) (hprs : '/' ∉ params)
    (hqh : '#' ∉ query)
    (hsemi : ∀ x y, splitAtLast '/' path = some (x, y) → ';' ∉ y) :
    ((pystr "http://").isPrefixOf
        (urlunparse ⟨sch, netloc, path, params, query, fragment⟩) = true ∨
      (pystr "https://").isPrefixOf
        (urlunparse ⟨sch, netloc, path, params, query, fragment⟩) = true) ∧
    urlparseE (urlunparse ⟨sch, netloc, path, params, query, fragment⟩) =
      .ok ⟨sch, netloc, path, params, query, fragment⟩ := by
  obtain ⟨pr0, hpr0⟩ := hpath
  set p3 : PyStr := if params ≠ [] then path ++ ';' :: params else path with hp3def
  set q2 : PyStr := if query ≠ [] then '?' :: query else [] with hq2def
  set f2 : PyStr := if fragment ≠ [] then '#' :: fragment else [] with hf2def
  have hp3start : ∃ s3, p3 = '/' :: s3 := by
    rw [hp3def]
    by_cases hpe : params = []
    · exact ⟨pr0, by rw [if_neg (by simp [hpe]), hpr0]⟩
    · exact ⟨pr0 ++ ';' :: params, by rw [if_pos (by simpa using hpe), hpr0]; rfl⟩
  obtain ⟨s3, hs3⟩ := hp3start
  have hp3mem : ∀ x ∈ p3, x ∈ path ∨ x = ';' ∨ x ∈ params := by
    intro x hx
    rw [hp3def] at hx
    by_cases hpe : params = []
    · rw [if_neg (by simp [hpe])] at hx
      exact Or.inl hx
    · rw [if_pos (by simpa using hpe)] at hx
      rcases List.mem_append.mp hx with h | h
      · exact Or.inl h
      · rcases List.mem_cons.mp h with h | h
        · exact Or.inr (Or.inl h)
        · exact Or.inr (Or.inr h)
  have hp3h : '#' ∉ p3 := by
    intro hm
    rcases hp3mem '#' hm with h | h | h
    · exact hph h
    · cases h
    · exact hprh h
  have hp3q : '?' ∉ p3 := by
    intro hm
    rcases hp3mem '?' hm with h | h | h
    · exact hpq h
    · cases h
    · exact hprq h
  have hcl3 : CleanStr p3 := by
    intro x hx
    rcases hp3mem x hx with h | h | h
    · exact hcp x h
    · rw [h]; rfl
    · exact hcpr x h
  have hclq2 : CleanStr q2 := by
    rw [hq2def]
    by_cases hqe : query = []
    · rw [if_neg (by simp [hqe])]; exact cleanStr_nil
    · rw [if_pos (by simpa using hqe)]
      exact cleanStr_cons rfl hcq
  have hclf2 : CleanStr f2 := by
    rw [hf2def]
    by_cases hfe : fragment = []
    · rw [if_neg (by simp [hfe])]; exact cleanStr_nil
    · rw [if_pos (by simpa using hfe)]
      exact cleanStr_cons rfl hcf
  have hu : urlunparse ⟨sch, netloc, path, params, query, fragment⟩ =
      sch ++ ':' :: '/' :: '/' :: (netloc ++ (p3 ++ (q2 ++ f2))) := by
    simp only [urlunparse, urlunsplit]
    rw [← hp3def]
    have hpre : ['/'] <+: p3 := ⟨s3, by rw [hs3]; rfl⟩
    have hschne : ¬sch = [] := by rcases hsch with rfl | rfl <;> simp [pystr]
    by_cases hqe : query = [] <;> by_cases hfe : fragment = [] <;>
      simp [hq2def, hf2def, hqe, hfe, hnn, hpre, hschne, List.append_assoc, pystr]
  have hcu : CleanStr (sch ++ ':' :: '/' :: '/' :: (netloc ++ (p3 ++ (q2 ++ f2)))) := by
    apply cleanStr_append
    · rcases hsch with rfl | rfl <;> (intro z hz; revert hz; revert z; decide)
    · refine cleanStr_cons (by decide) (cleanStr_cons (by decide) (cleanStr_cons (by decide) ?_))
      exact cleanStr_append hcn (cleanStr_append hcl3 (cleanStr_append hclq2 hclf2))
  have hw : wsClean (urlunparse ⟨sch, netloc, path, params, query, fragment⟩) =
      sch ++ ':' :: '/' :: '/' :: (netloc ++ (p3 ++ (q2 ++ f2))) := by
    rw [hu]
    apply wsClean_eq_self hcu
    intro y hy
    rcases hsch with rfl | rfl <;>
      (simp only [List.head?_append, pystr] at hy) <;>
      (simp at hy; rw [← hy]; rfl)
  have htk : takeUntilAny (pystr "/?#") (netloc ++ (p3 ++ (q2 ++ f2))) =
      (netloc, p3 ++ (q2 ++ f2)) := by
    apply takeUntilAny_eq _ _ _ hnet
    right
    refine ⟨'/', s3 ++ (q2 ++ f2), ?_, by decide⟩
    rw [hs3]
    rfl
  have hshape := urlsplitE_http_shape
    (urlunparse ⟨sch, netloc, path, params, query, fragment⟩) sch
    (netloc ++ (p3 ++ (q2 ++ f2))) hsch hw
  rw [htk] at hshape
  simp only [hbr, if_neg (by simp : ¬ (false = true))] at hshape
  -- compute splitFrag sch netloc (p3 ++ (q2 ++ f2))
  have hfr : splitFrag sch netloc (p3 ++ (q2 ++ f2)) = ⟨sch, netloc, p3, query, fragment⟩ := by
    unfold splitFrag
    have hsfrag : splitOnce '#' (p3 ++ (q2 ++ f2)) =
        (if fragment ≠ [] then some (p3 ++ q2, fragment) else none) := by
      by_cases hfe : fragment = []
      · rw [if_neg (by simp [hfe])]
        apply splitOnce_eq_none
        intro hm
        rcases List.mem_append.mp hm with h | h
        · exact hp3h h
        · rcases List.mem_append.mp h with h | h
          · rw [hq2def] at h
            by_cases hqe : query = []
            · rw [if_neg (by simp [hqe])] at h; cases h
            · rw [if_pos (by simpa using hqe)] at h
              rcases List.mem_cons.mp h with h | h
              · cases h
              · exact hqh h
          · rw [hf2def, if_neg (by simp [hfe])] at h
            cases h
      · rw [if_pos (by simpa using hfe)]
        have : p3 ++ (q2 ++ f2) = (p3 ++ q2) ++ '#' :: fragment := by
          rw [hf2def, if_pos (by simpa using hfe)]
          simp [List.append_assoc]
        rw [this]
        apply splitOnce_append
        intro hm
        rcases List.mem_append.mp hm with h | h
        · exact hp3h h
        · rw [hq2def] at h
          by_cases hqe : query = []
          · rw [if_neg (by simp [hqe])] at h; cases h
          · rw [if_pos (by simpa using hqe)] at h
            rcases List.mem_cons.mp h with h | h
            · cases h
            · exact hqh h
    have hsq : splitOnce '?' (p3 ++ q2) =
        (if query ≠ [] then some (p3, query) else none) := by
      by_cases hqe : query = []
      · rw [if_neg (by simp [hqe])]
        apply splitOnce_eq_none
        intro hm
        rcases List.mem_append.mp hm with h | h
        · exact hp3q h
        · rw [hq2def, if_neg (by simp [hqe])] at h
          cases h
      · rw [if_pos (by simpa using hqe)]
        have : p3 ++ q2 = p3 ++ '?' :: query := by
          rw [hq2def, if_pos (by simpa using hqe)]
        rw [this]
        exact splitOnce_append query hp3q
    by_cases hfe : fragment = []
    · rw [if_neg (by simp [hfe])] at hsfrag
      have hq2f2 : q2 ++ f2 = q2 := by
        rw [hf2def, if_neg (by simp [hfe])]
        simp
      rw [hq2f2] at hsfrag ⊢
      rw [hsfrag]
      by_cases hqe : query = []
      · rw [if_neg (by simp [hqe])] at hsq
        simp only [hsq]
        simp [hq2def, hqe, hfe]
      · rw [if_pos (by simpa using hqe)] at hsq
        simp only [hsq]
        simp [hfe]
    · rw [if_pos (by simpa using hfe)] at hsfrag
      rw [hsfrag]
      by_cases hqe : query = []
      · rw [if_neg (by simp [hqe])] at hsq
        simp only [hsq]
        simp [hq2def, hqe]
      · rw [if_pos (by simpa using hqe)] at hsq
        simp only [hsq]
  constructor
  · rcases hsch with rfl | rfl
    · left
      rw [hu]
      exact List.isPrefixOf_iff_prefix.mpr ⟨netloc ++ (p3 ++ (q2 ++ f2)), rfl⟩
    · right
      rw [hu]
      exact List.isPrefixOf_iff_prefix.mpr ⟨netloc ++ (p3 ++ (q2 ++ f2)), rfl⟩
  · unfold urlparseE
    rw [hshape, hfr]
    simp only [Except.map, Except.ok.injEq]
    have hup : usesParams sch = true := by
      rcases hsch with rfl | rfl <;> decide
    by_cases hpe : params = []
    · have hp3p : p3 = path := by rw [hp3def, if_neg (by simp [hpe])]
      rw [hp3p, hup]
      by_cases hsp : path.contains ';' = true
      · rw [hsp]
        simp only [Bool.and_self, if_pos rfl]
        obtain ⟨X, Y, hXY⟩ := splitAtLast_isSome_of_mem (hpr0 ▸ List.mem_cons_self '/' pr0)
        have hYsemi : ';' ∉ Y := hsemi X Y hXY
        have hsplit : splitParams path = (path, []) := by
          unfold splitParams
          simp only [hXY, splitOnce_eq_none hYsemi]
        rw [hsplit, hpe]
        simp
      · rw [if_neg (by simpa using hsp)]
        rw [hpe]
    · have hp3p : p3 = path ++ ';' :: params := by
        rw [hp3def, if_pos (by simpa using hpe)]
      obtain ⟨X, Y, hXY⟩ := splitAtLast_isSome_of_mem (hpr0 ▸ List.mem_cons_self '/' pr0)
      obtain ⟨hXY1, hXY2⟩ := splitAtLast_eq_some hXY
      have hYsemi : ';' ∉ Y := hsemi X Y hXY
      have hcontains : p3.contains ';' = true := by
        apply List.elem_iff.mpr
        rw [hp3p]
        exact List.mem_append.mpr (Or.inr (List.mem_cons_self ';' params))
      rw [hup, hcontains]
      simp only [Bool.and_self, if_pos rfl]
      have hp3eq : p3 = X ++ '/' :: (Y ++ ';' :: params) := by
        rw [hp3p, hXY1]
        simp [List.append_assoc]
      have hnoY : '/' ∉ Y ++ ';' :: params := by
        intro hm
        rcases List.mem_append.mp hm with h | h
        · exact hXY2 h
        · rcases List.mem_cons.mp h with h | h
          · cases h
          · exact hprs h
      have hsplit : splitParams p3 = (path, params) := by
        unfold splitParams
        rw [hp3eq]
        simp only [splitAtLast_append X hnoY, splitOnce_append params hYsemi]
        rw [hXY1]
      rw [hsplit]
      simp

theorem stop_contains_false {x : Char} (h1 : x ≠ '/') (h2 : x ≠ '?') (h3 : x ≠ '#') :
    (pystr "/?#").contains x = false := by
  apply contains_eq_false_iff.mpr
  intro hm
  have : x = '/' ∨ x = '?' ∨ x = '#' := by simpa [pystr] using hm
  rcases this with h | h | h
  · exact h1 h
  · exact h2 h
  · exact h3 h

/-- Claim C1 (amended): for every URL string with scheme `http://` or
`https://` accepted by `urlparse`, whose path has at least two non-empty
slash-separated segments and whose network-location contains no `@`,
supplying a non-empty credential `T` that contains none of `/`, `?`, `#`,
`[`, `]`, tab, CR, LF returns a URL whose network-location component is
exactly `oauth2:T@<original network-location>` with scheme, path, params,
query and fragment unchanged, and re-normalizing that output URL with any
credential returns the output URL unchanged (the embedded credential is
neither overwritten nor duplicated).  The restriction on the credential's
characters is forced: a credential containing `/` breaks both the
network-location shape and idempotence (see the counterexample). -/
theorem parse_git_url_token_embed_idempotent
    (url T : PyStr) (tok2 : Option PyStr) (p : UrlParts)
    (hstart : (pystr "http://").isPrefixOf url = true ∨
      (pystr "https://").isPrefixOf url = true)
    (hok : urlparseE url = .ok p)
    (hat : p.netloc.contains '@' = false)
    (hseg : 2 ≤ nonemptySegs '/' p.path)
    (hTne : T ≠ [])
    (hTch : ∀ c ∈ T, c ≠ '/' ∧ c ≠ '?' ∧ c ≠ '#' ∧ c ≠ '[' ∧ c ≠ ']' ∧
      isUnsafeByte c = false) :
    parse_git_url url (some T) = .ok
      (pyReplace (pystr ".git") []
        ((pySplit '/' (pyStripSet (pystr "/") p.path)).getLastD []),
       urlunparse ⟨p.scheme, pystr "oauth2:" ++ T ++ '@' :: p.netloc, p.path,
         p.params, p.query, p.fragment⟩) ∧
    urlparseE (urlunparse ⟨p.scheme, pystr "oauth2:" ++ T ++ '@' :: p.netloc, p.path,
        p.params, p.query, p.fragment⟩) =
      .ok ⟨p.scheme, pystr "oauth2:" ++ T ++ '@' :: p.netloc, p.path, p.params,
        p.query, p.fragment⟩ ∧
    parse_git_url (urlunparse ⟨p.scheme, pystr "oauth2:" ++ T ++ '@' :: p.netloc,
        p.path, p.params, p.query, p.fragment⟩) tok2 = .ok
      (pyReplace (pystr ".git") []
        ((pySplit '/' (pyStripSet (pystr "/") p.path)).getLastD []),
       urlunparse ⟨p.scheme, pystr "oauth2:" ++ T ++ '@' :: p.netloc, p.path,
         p.params, p.query, p.fragment⟩) := by
  obtain ⟨hsch, hnet, hbr, hcn, hcp, hcpr, hcq, hcf, hpstart, hph, hpq, hprh, hprq,
    hprs, hqh, hsemi⟩ := urlparse_http_inv url p hstart hok
  set nl2 : PyStr := pystr "oauth2:" ++ T ++ '@' :: p.netloc with hnl2
  have hnl2ne : nl2 ≠ [] := by rw [hnl2]; simp [pystr]
  have hnl2mem : ∀ x ∈ nl2, x ∈ pystr "oauth2:" ∨ x ∈ T ∨ x = '@' ∨ x ∈ p.netloc := by
    intro x hx
    rw [hnl2] at hx
    rcases List.mem_append.mp hx with h | h
    · rcases List.mem_append.mp h with h | h
      · exact Or.inl h
      · exact Or.inr (Or.inl h)
    · rcases List.mem_cons.mp h with h | h
      · exact Or.inr (Or.inr (Or.inl h))
      · exact Or.inr (Or.inr (Or.inr h))
  have hoauth : ∀ x ∈ pystr "oauth2:", (pystr "/?#").contains x = false := by decide
  have hnet2 : ∀ x ∈ nl2, (pystr "/?#").contains x = false := by
    intro x hx
    rcases hnl2mem x hx with h | h | h | h
    · exact hoauth x h
    · obtain ⟨h1, h2, h3, _⟩ := hTch x h
      exact stop_contains_false h1 h2 h3
    · rw [h]; decide
    · exact hnet x h
  have hmemtrans : ∀ z : Char, z ∉ pystr "oauth2:" ∪ [] → True := fun _ _ => trivial
  have hbrkt : ∀ z : Char, z = '[' ∨ z = ']' → (z ∈ nl2 ↔ z ∈ p.netloc) := by
    intro z hz
    constructor
    · intro hm
      rcases hnl2mem z hm with h | h | h | h
      · exact absurd h (by rcases hz with rfl | rfl <;> decide)
      · obtain ⟨_, _, _, h4, h5, _⟩ := hTch z h
        rcases hz with rfl | rfl
        · exact absurd rfl h4
        · exact absurd rfl h5
      · rcases hz with rfl | rfl <;> simp at h
      · exact h
    · intro hm
      rw [hnl2]
      exact List.mem_append.mpr (Or.inr (List.mem_cons_of_mem _ hm))
  have hcontains_eq : ∀ z : Char, z = '[' ∨ z = ']' →
      nl2.contains z = p.netloc.contains z := by
    intro z hz
    by_cases hm : z ∈ p.netloc
    · have e1 : nl2.contains z = true := List.elem_iff.mpr ((hbrkt z hz).mpr hm)
      have e2 : p.netloc.contains z = true := List.elem_iff.mpr hm
      rw [e1, e2]
    · rw [contains_eq_false_iff.mpr hm,
        contains_eq_false_iff.mpr (fun hmm => hm ((hbrkt z hz).mp hmm))]
  have hbr2 : bracketMismatch nl2 = false := by
    unfold bracketMismatch
    rw [hcontains_eq '[' (Or.inl rfl), hcontains_eq ']' (Or.inr rfl)]
    unfold bracketMismatch at hbr
    exact hbr
  have hcn2 : CleanStr nl2 := by
    intro x hx
    have hoc : ∀ y ∈ pystr "oauth2:", isUnsafeByte y = false := by decide
    rcases hnl2mem x hx with h | h | h | h
    · exact hoc x h
    · exact (hTch x h).2.2.2.2.2
    · rw [h]; rfl
    · exact hcn x h
  have hpne : p.path ≠ [] := by
    intro h0
    rw [h0] at hseg
    simp [nonemptySegs, pySplit] at hseg
  have hpath2 : ∃ pr, p.path = '/' :: pr := by
    rcases hpstart with h | h
    · exact absurd h hpne
    · exact h
  have hrt := urlparse_unparse_roundtrip p.scheme nl2 p.path p.params p.query
    p.fragment hsch hnl2ne hnet2 hbr2 hcn2 hcp hcpr hcq hcf hpath2 hph hpq hprh
    hprq hprs hqh hsemi
  obtain ⟨hpre2, hparse2⟩ := hrt
  have hguard : sshGuard url = false := by
    unfold sshGuard
    rcases hstart with h | h <;> rw [h] <;> simp
  have hlen2 : ¬ (pySplit '/' (pyStripSet (pystr "/") p.path)).length < 2 := by
    have := (seg_code_iff p.path).mp hseg
    omega
  have htne : (!T.isEmpty) = true := by
    cases T with
    | nil => exact absurd rfl hTne
    | cons a l => rfl
  have hsch2 : (p.scheme == pystr "http" || p.scheme == pystr "https") = true := by
    rcases hsch with h | h <;> rw [h] <;> simp
  have hcall1 : parse_git_url url (some T) = .ok
      (pyReplace (pystr ".git") []
        ((pySplit '/' (pyStripSet (pystr "/") p.path)).getLastD []),
       urlunparse ⟨p.scheme, nl2, p.path, p.params, p.query, p.fragment⟩) := by
    unfold parse_git_url
    rw [hguard]
    simp only [Bool.false_eq_true, if_false]
    unfold parseHttps
    simp only [hok]
    rw [if_neg hlen2]
    simp only [htne, hsch2, Bool.and_self, if_pos rfl, hat, Bool.not_false]
    simp [← hnl2]
  refine ⟨hcall1, hparse2, ?_⟩
  have hguard2 : sshGuard (urlunparse ⟨p.scheme, nl2, p.path, p.params, p.query,
      p.fragment⟩) = false := by
    unfold sshGuard
    rcases hpre2 with h | h <;> rw [h] <;> simp
  unfold parse_git_url
  rw [hguard2]
  simp only [Bool.false_eq_true, if_false]
  unfold parseHttps
  simp only [hparse2]
  rw [if_neg hlen2]
  have hat2 : nl2.contains '@' = true := by
    apply List.elem_iff.mpr
    rw [hnl2]
    exact List.mem_append.mpr (Or.inr (List.mem_cons_self '@' p.netloc))
  cases tok2 with
  | none => rfl
  | some t2 =>
    simp only [hat2, Bool.not_true, Bool.false_eq_true, if_false]
    split <;> rfl

theorem isAbs_cons (x : Char) (l : PyStr) : isAbs (x :: l) = ('/' == x) := by
  simp [isAbs, pystr, List.isPrefixOf]

theorem posixNormpath_abs {q : PyStr} (h : isAbs q = true) :
    isAbs (posixNormpath q) = true := by
  have hne : q ≠ [] := by
    intro h0
    rw [h0] at h
    simp [isAbs, pystr, List.isPrefixOf] at h
  have h1 : List.isPrefixOf (pystr "/") q = true := h
  simp only [posixNormpath]
  rw [if_neg hne]
  simp only [h1, if_pos rfl]
  by_cases h2 : (List.isPrefixOf (pystr "//") q = true ∧
      ¬ List.isPrefixOf (pystr "///") q = true)
  · rw [if_pos h2]
    rw [if_neg (by simp [List.replicate])]
    simp [List.replicate, isAbs_cons]
  · rw [if_neg h2]
    rw [if_neg (by simp [List.replicate])]
    simp [List.replicate, isAbs_cons]

theorem posixJoin_abs {a : PyStr} (b : PyStr) (h : isAbs a = true) :
    isAbs (posixJoin a b) = true := by
  unfold posixJoin
  by_cases hb : isAbs b = true
  · rw [if_pos hb]
    exact hb
  · rw [if_neg hb]
    rcases a with _ | ⟨x, xs⟩
    · simp [isAbs, pystr, List.isPrefixOf] at h
    · have hx : ('/' == x) = true := by rw [← isAbs_cons]; exact h
      by_cases hc : (x :: xs : PyStr) = [] ∨ (x :: xs : PyStr).getLast? = some '/'
      · rw [if_pos hc, List.cons_append, isAbs_cons]
        exact hx
      · rw [if_neg hc, List.cons_append, isAbs_cons]
        exact hx

theorem posixAbspath_abs {cwd p : PyStr} (h : isAbs cwd = true) :
    isAbs (posixAbspath cwd p) = true := by
  unfold posixAbspath
  by_cases hp : isAbs p = true
  · rw [if_pos hp]
    exact posixNormpath_abs hp
  · rw [if_neg hp]
    exact posixNormpath_abs (posixJoin_abs p h)

/-- Claim C5: for every URL not classified as SSH whose parsed path contains
fewer than two non-empty slash-separated segments, `parse_git_url` raises the
`ValueError` carrying `Invalid Git URL format: <url>` (the InvalidURLFormat
failure), for any credential, and `clone_repository` on such a URL fails the
same way with an empty command trace — no subprocess is spawned. -/
theorem parse_git_url_invalid_format
    (url : PyStr) (tok : Option PyStr) (p : UrlParts)
    (ops : GitOperations) (fs : PyStr → Bool) (runner : List PyStr → RunResult)
    (branch : Option PyStr)
    (hssh : sshClassified url = false)
    (hok : urlparseE url = .ok p)
    (hseg : nonemptySegs '/' p.path < 2) :
    parse_git_url url tok =
      .error ⟨.valueError, pystr "Invalid Git URL format: " ++ url⟩ ∧
    clone_repository ops fs runner url branch tok =
      (.error ⟨.valueError, pystr "Invalid Git URL format: " ++ url⟩, []) := by
  have hlen : (pySplit '/' (pyStripSet (pystr "/") p.path)).length < 2 := by
    by_contra hc
    push_neg at hc
    have := (seg_code_iff p.path).mpr hc
    omega
  have hhttps : parseHttps url tok =
      .error ⟨.valueError, pystr "Invalid Git URL format: " ++ url⟩ := by
    unfold parseHttps
    simp only [hok]
    rw [if_pos hlen]
  have hparse : parse_git_url url tok =
      .error ⟨.valueError, pystr "Invalid Git URL format: " ++ url⟩ := by
    unfold parse_git_url
    by_cases hg : sshGuard url = true
    · have hpat : gitSshPattern url = none := by
        unfold sshClassified at hssh
        rw [hg] at hssh
        simp only [Bool.true_and] at hssh
        exact Option.not_isSome_iff_eq_none.mp (by simp [hssh])
      rw [if_pos hg]
      simp only [hpat]
      exact hhttps
    · rw [if_neg hg]
      exact hhttps
  refine ⟨hparse, ?_⟩
  unfold clone_repository
  simp only [hparse]

/-- Claim C6: when the computed clone target `base_path/repository_name`
already exists, `clone_repository` fails with the `ValueError` carrying
`Repository directory already exists: <path>` (the RepositoryAlreadyExists
failure) and spawns no subprocess (empty command trace), for every url,
branch and credential — in this model only spawned commands can touch the
filesystem, so the existing directory is left untouched. -/
theorem clone_existing_dir_error
    (ops : GitOperations) (fs : PyStr → Bool) (runner : List PyStr → RunResult)
    (url : PyStr) (branch tok : Option PyStr) (name nurl : PyStr)
    (hparse : parse_git_url url tok = .ok (name, nurl))
    (hex : fs (posixJoin ops.base_path name) = true) :
    clone_repository ops fs runner url branch tok =
      (.error ⟨.valueError, pystr "Repository directory already exists: " ++
        posixJoin ops.base_path name⟩, []) := by
  unfold clone_repository
  simp only [hparse]
  rw [if_pos hex]

/-- Claim C7: `clone_repository("git@github.com:acme/widgets.git",
branch="main")` on an executor built with `base_path="/tmp/x"` (target not
pre-existing) spawns exactly
`git clone -b main --single-branch git@github.com:acme/widgets.git
/tmp/x/widgets` and, when that command exits with status 0, returns
`/tmp/x/widgets`. -/
theorem clone_widgets_end_to_end
    (cwd : PyStr) (ssh : Option PyStr) (fs : PyStr → Bool)
    (runner : List PyStr → RunResult) (out err : PyStr)
    (hfs : fs (pystr "/tmp/x/widgets") = false)
    (hrun : runner [pystr "git", pystr "clone", pystr "-b", pystr "main",
      pystr "--single-branch", pystr "git@github.com:acme/widgets.git",
      pystr "/tmp/x/widgets"] = .exited 0 out err) :
    clone_repository (GitOperations.init cwd (pystr "/tmp/x") ssh) fs runner
      (pystr "git@github.com:acme/widgets.git") (some (pystr "main")) none =
    (.ok (pystr "/tmp/x/widgets"),
     [[pystr "git", pystr "clone", pystr "-b", pystr "main",
       pystr "--single-branch", pystr "git@github.com:acme/widgets.git",
       pystr "/tmp/x/widgets"]]) := by
  have hbase : (GitOperations.init cwd (pystr "/tmp/x") ssh).base_path =
      pystr "/tmp/x" := by
    unfold GitOperations.init posixAbspath
    rw [if_pos (by decide)]
    show posixNormpath (pystr "/tmp/x") = pystr "/tmp/x"
    decide
  have hp : parse_git_url (pystr "git@github.com:acme/widgets.git") none =
      .ok (pystr "widgets", pystr "git@github.com:acme/widgets.git") := by decide
  have hjoin : posixJoin (pystr "/tmp/x") (pystr "widgets") =
      pystr "/tmp/x/widgets" := by decide
  unfold clone_repository
  simp only [hp, hbase, hjoin]
  rw [if_neg (by rw [hfs]; simp)]
  have hcmd : (pystr "git" :: pystr "clone" ::
      ((if !(pystr "main").isEmpty then [pystr "-b", pystr "main"] else []) ++
       [pystr "--single-branch", pystr "git@github.com:acme/widgets.git",
        pystr "/tmp/x/widgets"])) =
      [pystr "git", pystr "clone", pystr "-b", pystr "main",
       pystr "--single-branch", pystr "git@github.com:acme/widgets.git",
       pystr "/tmp/x/widgets"] := by decide
  simp only [hcmd]
  unfold runCommand
  rw [hrun]
  simp

/-- Claim C8: a credential is only ever embedded into an http(s) URL: when
the URL is classified as SSH, or when its parsed scheme is neither `http`
nor `https`, the URL returned by `parse_git_url` is byte-identical to the
input for every supplied credential — so the `oauth2:<credential>@` form is
never introduced into an SSH URL or a URL without an http(s) scheme. -/
theorem credential_only_embedded_in_https
    (url : PyStr) (tok : Option PyStr) (name nurl : PyStr) (p : UrlParts)
    (hparse : parse_git_url url tok = .ok (name, nurl))
    (hcase : sshClassified url = true ∨
      (urlparseE url = .ok p ∧ p.scheme ≠ pystr "http" ∧ p.scheme ≠ pystr "https")) :
    nurl = url := by
  have hHttps : (urlparseE url = .ok p ∧ p.scheme ≠ pystr "http" ∧
      p.scheme ≠ pystr "https") → parseHttps url tok = .ok (name, nurl) → nurl = url := by
    rintro ⟨hok, h1, h2⟩ hp
    unfold parseHttps at hp
    simp only [hok] at hp
    by_cases hlen : (pySplit '/' (pyStripSet (pystr "/") p.path)).length < 2
    · rw [if_pos hlen] at hp
      cases hp
    · rw [if_neg hlen] at hp
      cases tok with
      | none =>
        simp only [Except.ok.injEq, Prod.mk.injEq] at hp
        exact hp.2.symm
      | some t =>
        have e1 : (p.scheme == pystr "http") = false := by
          simpa using h1
        have e2 : (p.scheme == pystr "https") = false := by
          simpa using h2
        simp only [e1, e2, Bool.or_self, Bool.and_false, Bool.false_eq_true,
          if_false, Except.ok.injEq, Prod.mk.injEq] at hp
        exact hp.2.symm
  rcases hcase with hssh | hsc
  · unfold sshClassified at hssh
    obtain ⟨hg, hps⟩ := Bool.and_eq_true_iff.mp hssh
    obtain ⟨g, hgp⟩ := Option.isSome_iff_exists.mp hps
    unfold parse_git_url at hparse
    rw [if_pos hg] at hparse
    simp only [hgp, Except.ok.injEq, Prod.mk.injEq] at hparse
    exact hparse.2.symm
  · unfold parse_git_url at hparse
    by_cases hg : sshGuard url = true
    · rw [if_pos hg] at hparse
      match hgp : gitSshPattern url with
      | some g =>
        simp only [hgp, Except.ok.injEq, Prod.mk.injEq] at hparse
        exact hparse.2.symm
      | none =>
        simp only [hgp] at hparse
        exact hHttps hsc hparse
    · rw [if_neg hg] at hparse
      exact hHttps hsc hparse

/-- Claim C10: `GitOperations.__init__` stores `os.path.abspath(base_path)`,
so every successful `clone_repository` call returns exactly
`abspath(base_path)` joined with the derived repository name, and that path
is absolute whenever the process working directory is absolute (which the
operating system guarantees), even for a relative `base_path`. -/
theorem clone_returns_absolute_path
    (cwd base : PyStr) (ssh : Option PyStr) (fs : PyStr → Bool)
    (runner : List PyStr → RunResult) (url : PyStr) (branch tok : Option PyStr)
    (rp : PyStr) (tr : List (List PyStr)) (name nurl : PyStr)
    (hcwd : isAbs cwd = true)
    (hparse : parse_git_url url tok = .ok (name, nurl))
    (hclone : clone_repository (GitOperations.init cwd base ssh) fs runner url
      branch tok = (.ok rp, tr)) :
    rp = posixJoin (posixAbspath cwd base) name ∧ isAbs rp = true := by
  unfold clone_repository at hclone
  simp only [hparse] at hclone
  by_cases hex : fs (posixJoin (GitOperations.init cwd base ssh).base_path name) = true
  · rw [if_pos hex] at hclone
    simp at hclone
  · rw [if_neg hex] at hclone
    have hrp : rp = posixJoin (GitOperations.init cwd base ssh).base_path name := by
      split at hclone
      · simp at hclone
      · simp only [Prod.mk.injEq, Except.ok.injEq] at hclone
        exact hclone.1.symm
    have hbase : (GitOperations.init cwd base ssh).base_path =
        posixAbspath cwd base := rfl
    rw [hbase] at hrp
    refine ⟨hrp, ?_⟩
    rw [hrp]
    exact posixJoin_abs name (posixAbspath_abs hcwd)

/-- Claim C9 (amended): the failure categories are not distinguishable the
way the claim states.  InvalidURLFormat and RepositoryAlreadyExists are both
raised as `ValueError`, distinguished only by their message text; a non-zero
exit status raises the generic `Exception` carrying the captured
standard-error verbatim after `Command failed with error: `; and a failure
to spawn the process (missing binary, permission denied) is NOT wrapped into
that kind — `Popen` raises an `OSError` subclass, which the
`except subprocess.SubprocessError` clause at line 58 does not catch, so it
propagates unwrapped, carrying the OS error description, under a kind
different from the non-zero-exit failure.  Only a
`subprocess.SubprocessError` (which this call shape never produces) would be
wrapped into `Exception("Failed to execute command: <error>")`. -/
theorem failure_kinds_and_verbatim_diagnostics
    (cmd : List PyStr) (oserr sperr stderr out : PyStr) (rc : Int)
    (url1 url2 : PyStr) (tok1 tok2 : Option PyStr) (e : PyExc)
    (ops : GitOperations) (fs : PyStr → Bool) (runner : List PyStr → RunResult)
    (branch : Option PyStr) (name nurl : PyStr)
    (hrc : rc ≠ 0)
    (h1 : parse_git_url url1 tok1 = .error e)
    (h2 : parse_git_url url2 tok2 = .ok (name, nurl))
    (h3 : fs (posixJoin ops.base_path name) = true) :
    runCommand (fun _ => .spawnFailure oserr) cmd = .error ⟨.osError, oserr⟩ ∧
    runCommand (fun _ => .exited rc out stderr) cmd =
      .error ⟨.exception, pystr "Command failed with error: " ++ stderr⟩ ∧
    PyKind.osError ≠ PyKind.exception ∧
    runCommand (fun _ => .subprocessError sperr) cmd =
      .error ⟨.exception, pystr "Failed to execute command: " ++ sperr⟩ ∧
    e.kind = .valueError ∧
    (clone_repository ops fs runner url2 branch tok2).1 =
      .error ⟨.valueError, pystr "Repository directory already exists: " ++
        posixJoin ops.base_path name⟩ := by
  refine ⟨rfl, ?_, by decide, rfl, ?_, ?_⟩
  · simp [runCommand, hrc]
  · have hkind : ∀ (u : PyStr) (t : Option PyStr) (e0 : PyExc),
        parseHttps u t = .error e0 → e0.kind = .valueError := by
      intro u t e0 hp
      unfold parseHttps at hp
      match hok : urlparseE u with
      | .error m =>
        simp only [hok, Except.error.injEq] at hp
        rw [← hp]
      | .ok parsed =>
        simp only [hok] at hp
        by_cases hlen : (pySplit '/' (pyStripSet (pystr "/") parsed.path)).length < 2
        · rw [if_pos hlen] at hp
          simp only [Except.error.injEq] at hp
          rw [← hp]
        · rw [if_neg hlen] at hp
          cases hp
    unfold parse_git_url at h1
    by_cases hg : sshGuard url1 = true
    · rw [if_pos hg] at h1
      match hgp : gitSshPattern url1 with
      | some g =>
        rw [hgp] at h1
        cases h1
      | none =>
        rw [hgp] at h1
        exact hkind url1 tok1 e h1
    · rw [if_neg hg] at h1
      exact hkind url1 tok1 e h1
  · unfold clone_repository
    simp only [h2]
    rw [if_pos h3]

/-- Claim C2 (code evaluation at the failing input): the code derives the
repository name with `replace(".git", "")` (line 88), which removes the
interior `.git` substring, so `https://example.com/a/my.git.collection`
yields `my.collection` — not the `my.git.collection` the claim requires. -/
theorem parse_git_url_interior_git_removed :
    parse_git_url (pystr "https://example.com/a/my.git.collection") none =
      .ok (pystr "my.collection", pystr "https://example.com/a/my.git.collection") := by
  decide

/-- Claim C3 (code evaluation at the failing input): the SSH branch derives
the name with `repo.strip(".git")` (line 78), which strips the CHARACTER SET
`{'.', 'g', 'i', 't'}` from both ends, so `git@github.com:owner/tig.git`
yields the empty name instead of `tig`; the URL is returned byte-identical
and the credential is ignored, as the claim states. -/
theorem parse_git_url_ssh_strip_charset :
    parse_git_url (pystr "git@github.com:owner/tig.git") (some (pystr "tok")) =
      .ok ([], pystr "git@github.com:owner/tig.git") := by
  decide

/-- Claim C4 (code evaluation at the failing input): `parse_git_url`
succeeds on `https://host/a/.git` with an EMPTY repository name
(`".git".replace(".git", "") == ""`), violating the claimed invariant that a
successful parse never yields an empty name. -/
theorem parse_git_url_empty_name :
    parse_git_url (pystr "https://host/a/.git") none =
      .ok ([], pystr "https://host/a/.git") := by
  decide

/-- Claim C1 counterexample: with the credential `a/b` (containing `/`), the
first call embeds `oauth2:a/b@` but the network-location of the output URL
is then re-parsed as `oauth2:a`, which contains no `@`, so re-normalizing
the output URL embeds the credential a SECOND time — the output changes and
the credential is duplicated, refuting the claim as stated for arbitrary
credentials. -/
theorem parse_git_url_credential_slash_counterexample :
    parse_git_url (pystr "https://github.com/acme/repo") (some (pystr "a/b")) =
      .ok (pystr "repo", pystr "https://oauth2:a/b@github.com/acme/repo") ∧
    parse_git_url (pystr "https://oauth2:a/b@github.com/acme/repo")
        (some (pystr "a/b")) =
      .ok (pystr "repo",
        pystr "https://oauth2:a/b@oauth2:a/b@github.com/acme/repo") ∧
    pystr "https://oauth2:a/b@oauth2:a/b@github.com/acme/repo" ≠
      pystr "https://oauth2:a/b@github.com/acme/repo" := by
  refine ⟨by decide, by decide, by decide⟩

/-- Claim C9 counterexample: at concrete inputs the InvalidURLFormat
failure and the RepositoryAlreadyExists failure carry the SAME exception
kind (`ValueError`), and a spawn failure propagates as an unwrapped
`OSError` whose kind DIFFERS from the non-zero-exit `Exception` — so both
the claim's "three distinct error kinds" and its "a failure to spawn the
process fails with the same CommandExecutionError kind" are false of the
code. -/
theorem failure_kinds_not_distinct_counterexample :
    parse_git_url (pystr "https://github.com/org") none =
      .error ⟨.valueError, pystr "Invalid Git URL format: https://github.com/org"⟩ ∧
    (clone_repository ⟨pystr "/tmp/x", none⟩ (fun _ => true)
      (fun _ => .exited 0 [] []) (pystr "git@github.com:acme/widgets.git")
      none none).1 =
      .error ⟨.valueError,
        pystr "Repository directory already exists: /tmp/x/widgets"⟩ ∧
    (⟨.valueError, pystr "Invalid Git URL format: https://github.com/org"⟩ :
      PyExc).kind =
    (⟨.valueError, pystr "Repository directory already exists: /tmp/x/widgets"⟩ :
      PyExc).kind ∧
    runCommand
      (fun _ => .spawnFailure (pystr "No such file or directory: 'git'"))
      [pystr "git"] =
      .error ⟨.osError, pystr "No such file or directory: 'git'"⟩ ∧
    runCommand (fun _ => .exited 1 [] (pystr "fatal")) [pystr "git"] =
      .error ⟨.exception, pystr "Command failed with error: fatal"⟩ ∧
    PyKind.osError ≠ PyKind.exception := by
  refine ⟨by decide, by decide, rfl, rfl, by decide, by decide⟩

/-- Witness for the amended C1 theorem at a concrete input. -/
theorem parse_git_url_token_embed_idempotent_witness :
    parse_git_url (pystr "https://github.com/acme/repo") (some (pystr "tok")) = .ok
      (pyReplace (pystr ".git") []
        ((pySplit '/' (pyStripSet (pystr "/") (pystr "/acme/repo"))).getLastD []),
       urlunparse ⟨pystr "https",
         pystr "oauth2:" ++ pystr "tok" ++ '@' :: pystr "github.com",
         pystr "/acme/repo", [], [], []⟩) ∧
    urlparseE (urlunparse ⟨pystr "https",
        pystr "oauth2:" ++ pystr "tok" ++ '@' :: pystr "github.com",
        pystr "/acme/repo", [], [], []⟩) =
      .ok ⟨pystr "https", pystr "oauth2:" ++ pystr "tok" ++ '@' :: pystr "github.com",
        pystr "/acme/repo", [], [], []⟩ ∧
    parse_git_url (urlunparse ⟨pystr "https",
        pystr "oauth2:" ++ pystr "tok" ++ '@' :: pystr "github.com",
        pystr "/acme/repo", [], [], []⟩) (some (pystr "other")) = .ok
      (pyReplace (pystr ".git") []
        ((pySplit '/' (pyStripSet (pystr "/") (pystr "/acme/repo"))).getLastD []),
       urlunparse ⟨pystr "https",
         pystr "oauth2:" ++ pystr "tok" ++ '@' :: pystr "github.com",
         pystr "/acme/repo", [], [], []⟩) :=
  parse_git_url_token_embed_idempotent (pystr "https://github.com/acme/repo")
    (pystr "tok") (some (pystr "other"))
    ⟨pystr "https", pystr "github.com", pystr "/acme/repo", [], [], []⟩
    (Or.inr (by decide)) (by decide) (by decide) (by decide) (by decide) (by decide)

/-- Witness for the C5 theorem at the spec's own example. -/
theorem parse_git_url_invalid_format_witness :
    parse_git_url (pystr "https://github.com/org") (some (pystr "tok")) =
      .error ⟨.valueError,
        pystr "Invalid Git URL format: " ++ pystr "https://github.com/org"⟩ ∧
    clone_repository ⟨pystr "/tmp/x", none⟩ (fun _ => false)
      (fun _ => .exited 0 [] []) (pystr "https://github.com/org") none
      (some (pystr "tok")) =
      (.error ⟨.valueError,
        pystr "Invalid Git URL format: " ++ pystr "https://github.com/org"⟩, []) :=
  parse_git_url_invalid_format (pystr "https://github.com/org")
    (some (pystr "tok")) ⟨pystr "https", pystr "github.com", pystr "/org", [], [], []⟩
    ⟨pystr "/tmp/x", none⟩ (fun _ => false) (fun _ => .exited 0 [] []) none
    (by decide) (by decide) (by decide)

/-- Witness for the C6 theorem at a concrete input. -/
theorem clone_existing_dir_error_witness :
    clone_repository ⟨pystr "/tmp/x", none⟩ (fun _ => true)
      (fun _ => .exited 0 [] []) (pystr "git@github.com:acme/widgets.git")
      none none =
      (.error ⟨.valueError, pystr "Repository directory already exists: " ++
        posixJoin (pystr "/tmp/x") (pystr "widgets")⟩, []) :=
  clone_existing_dir_error ⟨pystr "/tmp/x", none⟩ (fun _ => true)
    (fun _ => .exited 0 [] []) (pystr "git@github.com:acme/widgets.git")
    none none (pystr "widgets") (pystr "git@github.com:acme/widgets.git")
    (by decide) rfl

/-- Witness for the C7 theorem at a concrete executor and runner. -/
theorem clone_widgets_end_to_end_witness :
    clone_repository (GitOperations.init (pystr "/") (pystr "/tmp/x") none)
      (fun _ => false) (fun _ => .exited 0 [] [])
      (pystr "git@github.com:acme/widgets.git") (some (pystr "main")) none =
    (.ok (pystr "/tmp/x/widgets"),
     [[pystr "git", pystr "clone", pystr "-b", pystr "main",
       pystr "--single-branch", pystr "git@github.com:acme/widgets.git",
       pystr "/tmp/x/widgets"]]) :=
  clone_widgets_end_to_end (pystr "/") none (fun _ => false)
    (fun _ => .exited 0 [] []) [] [] rfl rfl

/-- Witness for the C8 theorem at a concrete SSH URL with a credential. -/
theorem credential_only_embedded_in_https_witness :
    parse_git_url (pystr "git@github.com:acme/widgets.git") (some (pystr "tkn")) =
      .ok (pystr "widgets", pystr "git@github.com:acme/widgets.git") ∧
    pystr "git@github.com:acme/widgets.git" =
      pystr "git@github.com:acme/widgets.git" :=
  ⟨by decide,
   credential_only_embedded_in_https (pystr "git@github.com:acme/widgets.git")
     (some (pystr "tkn")) (pystr "widgets") (pystr "git@github.com:acme/widgets.git")
     ⟨[], [], [], [], [], []⟩ (by decide) (Or.inl (by decide))⟩

/-- Witness for the amended C9 theorem at concrete inputs. -/
theorem failure_kinds_and_verbatim_diagnostics_witness :
    runCommand (fun _ => .spawnFailure (pystr "boom")) [pystr "git"] =
      .error ⟨.osError, pystr "boom"⟩ ∧
    runCommand (fun _ => .exited 1 [] (pystr "fatal: not found")) [pystr "git"] =
      .error ⟨.exception,
        pystr "Command failed with error: " ++ pystr "fatal: not found"⟩ ∧
    PyKind.osError ≠ PyKind.exception ∧
    runCommand (fun _ => .subprocessError (pystr "sub")) [pystr "git"] =
      .error ⟨.exception, pystr "Failed to execute command: " ++ pystr "sub"⟩ ∧
    (⟨.valueError,
      pystr "Invalid Git URL format: https://github.com/org"⟩ : PyExc).kind =
      .valueError ∧
    (clone_repository ⟨pystr "/tmp/x", none⟩ (fun _ => true)
      (fun _ => .exited 0 [] []) (pystr "git@github.com:acme/widgets.git")
      none none).1 =
      .error ⟨.valueError, pystr "Repository directory already exists: " ++
        posixJoin (pystr "/tmp/x") (pystr "widgets")⟩ :=
  failure_kinds_and_verbatim_diagnostics [pystr "git"] (pystr "boom")
    (pystr "sub") (pystr "fatal: not found") [] 1
    (pystr "https://github.com/org") (pystr "git@github.com:acme/widgets.git")
    none none
    ⟨.valueError, pystr "Invalid Git URL format: https://github.com/org"⟩
    ⟨pystr "/tmp/x", none⟩ (fun _ => true) (fun _ => .exited 0 [] []) none
    (pystr "widgets") (pystr "git@github.com:acme/widgets.git")
    (by decide) (by decide) (by decide) rfl

/-- Witness for the C10 theorem with a relative base path. -/
theorem clone_returns_absolute_path_witness :
    pystr "/w/rel/widgets" =
      posixJoin (posixAbspath (pystr "/w") (pystr "rel")) (pystr "widgets") ∧
    isAbs (pystr "/w/rel/widgets") = true :=
  clone_returns_absolute_path (pystr "/w") (pystr "rel") none (fun _ => false)
    (fun _ => .exited 0 [] []) (pystr "git@github.com:acme/widgets.git")
    (some (pystr "main")) none (pystr "/w/rel/widgets")
    [[pystr "git", pystr "clone", pystr "-b", pystr "main",
      pystr "--single-branch", pystr "git@github.com:acme/widgets.git",
      pystr "/w/rel/widgets"]]
    (pystr "widgets") (pystr "git@github.com:acme/widgets.git")
    (by decide) (by decide) (by decide)
